import Mathlib

/-!
A shallow embedding of `sync_folders.py` (one-way folder synchronization).

Filesystem trees are modelled as finite `Node` trees: a regular file carries
its byte content (`List Nat`) and an abstract metadata word (mtime /
permissions, which `shutil.copy2` copies and `filecmp.cmp shallow=False`
ignores); a directory carries an association list of named children, in
`os.listdir` order.

Each Python function that touches the filesystem becomes a pure function
that takes the relevant subtree(s) and returns the new replica subtree
together with the list of per-entry outcomes (`Event`) it logs.  The source
tree is passed immutably, matching the program, whose mutating calls
(`shutil.copy2`, `shutil.copytree`, `os.remove`, `shutil.rmtree`) all
target paths joined under the replica root.  Fallible OS calls are driven
by an `Env` of failure predicates: `copyFails p` makes `shutil.copy2` on
source path `p` raise a caught `PermissionError`-like error, `removeFails p`
makes `os.remove`/`shutil.rmtree` on replica path `p` fail (caught), and
`cmpRaises p` makes opening path `p` for the byte comparison inside
`filecmp.cmp` raise.  The comparison exception is the one exception in the
program with no handler on its call path, so `copy_to_replica` and
`synch_folders` return `Except Path _` and propagate it.

The Python functions re-list directories from the live filesystem at each
recursion step; since the program is single-threaded and only mutates
replica paths, recursing on the source (resp. replica) tree value passed
in is equivalent, and that is how the recursions are expressed here.
-/

namespace SyncFolders

/-- A filesystem path: the list of name components from a root. -/
abbrev Path := List String

/-- A filesystem object: a regular file (byte content plus abstract metadata
copied by `shutil.copy2` and ignored by the comparison) or a directory with
named children in listing order. -/
inductive Node where
  | file (content : List Nat) (meta : Nat)
  | dir (children : List (String × Node))
deriving Repr

/-- A directory listing: `os.listdir` order, names paired with the objects. -/
abbrev Listing := List (String × Node)

/-- Which OS calls fail, keyed by path: `copyFails` on the source path of a
`shutil.copy2`/per-file `copytree` copy, `removeFails` on the replica path
handed to `os.remove`/`shutil.rmtree`, `cmpRaises` on a path whose `open`
for reading inside `filecmp.cmp` raises. -/
structure Env where
  cmpRaises : Path → Bool
  copyFails : Path → Bool
  removeFails : Path → Bool

/-- The environment in which no filesystem operation fails. -/
def Env.ok : Env :=
  { cmpRaises := fun _ => false, copyFails := fun _ => false, removeFails := fun _ => false }

/-- The environment in which exactly one copy operation fails: the copy
whose source path is `p0` (e.g. a permission error on that one file);
every other operation succeeds. -/
def envOneBadCopy (p0 : Path) : Env :=
  { cmpRaises := fun _ => false, copyFails := fun p => p == p0, removeFails := fun _ => false }

/-- One logged per-entry outcome.  Every constructor carries the replica-side
path of the operation (copy destination or removal target). -/
inductive Event where
  | copiedFile (p : Path)
  | copyFileFailed (p : Path)
  | copiedDir (p : Path)
  | copyDirFailed (p : Path)
  | removedFile (p : Path)
  | removeFileFailed (p : Path)
  | removedDir (p : Path)
  | removeDirFailed (p : Path)
deriving Repr, DecidableEq

/-- The replica-side path an event is about. -/
def Event.path : Event → Path
  | .copiedFile p => p
  | .copyFileFailed p => p
  | .copiedDir p => p
  | .copyDirFailed p => p
  | .removedFile p => p
  | .removeFileFailed p => p
  | .removedDir p => p
  | .removeDirFailed p => p

/-- Whether an event is a logged failure (a caught exception). -/
def Event.isFailure : Event → Bool
  | .copyFileFailed _ => true
  | .copyDirFailed _ => true
  | .removeFileFailed _ => true
  | .removeDirFailed _ => true
  | _ => false

/-- First-match association-list lookup, i.e. what a path component resolves
to inside a listed directory. -/
def lookupA : Listing → String → Option Node
  | [], _ => none
  | (k, v) :: t, n => if k == n then some v else lookupA t n

/-- `os.path.exists` for a name inside a listed directory. -/
def hasName (l : Listing) (n : String) : Bool :=
  (lookupA l n).isSome

/-- Replace the first entry named `n` (the effect of overwriting the object
at an existing path). -/
def updateA : Listing → String → Node → Listing
  | [], _, _ => []
  | (k, v) :: t, n, w => if k == n then (k, w) :: t else (k, v) :: updateA t n w

/-- Drop the first entry named `n` (the effect of removing the object at a
path). -/
def eraseA : Listing → String → Listing
  | [], _ => []
  | (k, v) :: t, n => if k == n then t else (k, v) :: eraseA t n

/-- Write `w` at name `n`: overwrite if present, else create (append, as a
new name shows up at the end of a later listing). -/
def setA (l : Listing) (n : String) (w : Node) : Listing :=
  if hasName l n then updateA l n w else l ++ [(n, w)]

/-- Store an optional object at name `n`: `none` means the path ends up
absent. -/
def updOpt (l : Listing) (n : String) : Option Node → Listing
  | some w => updateA l n w
  | none => eraseA l n

/-- What `os.path.join(p, n)` resolves to below node `x`: below a regular
file no path exists. -/
def childOf : Node → String → Option Node
  | .file _ _, _ => none
  | .dir cs, n => lookupA cs n

/-- `os.path.basename`: the last component of a path. -/
def basename (p : Path) : String :=
  p.getLastD ""

/-- Resolve a relative path below a node. -/
def lookupPath : Node → Path → Option Node
  | x, [] => some x
  | .file _ _, _ :: _ => none
  | .dir cs, n :: rest =>
    match lookupA cs n with
    | some x => lookupPath x rest
    | none => none

/-- `is_folder_empty`: `not os.listdir(path)`. -/
def is_folder_empty (l : Listing) : Bool :=
  l.isEmpty

/-- Models `copy_file` (`shutil.copy2` wrapped in exception handlers):
copies content and metadata of the source file at source path `sp` to the
replica path `rp` whose current object is `dst`; on any caught error the
destination is left as it was.  `copy2` onto an existing directory copies
into it under the source basename; `copy2` of a directory raises a caught
`OSError`. -/
def copy_file (env : Env) (sp rp : Path) (src : Node) (dst : Option Node) :
    Option Node × List Event :=
  if env.copyFails sp then (dst, [.copyFileFailed rp])
  else
    match src, dst with
    | .dir _, _ => (dst, [.copyFileFailed rp])
    | .file c m, some (.dir cs) =>
      (some (.dir (setA cs (basename sp) (.file c m))), [.copiedFile (rp ++ [basename sp])])
    | .file c m, _ => (some (.file c m), [.copiedFile rp])

/-- The recursive body of `shutil.copytree`: clone a source directory's
children, skipping each file whose per-file `copy2` fails and collecting
whether any error occurred (`copytree` gathers them into one
`shutil.Error`). -/
def copytreeList (env : Env) (sp : Path) : Listing → Listing × Bool
  | [] => ([], false)
  | (n, .file c m) :: t =>
    let r := copytreeList env sp t
    if env.copyFails (sp ++ [n]) then (r.1, true)
    else ((n, .file c m) :: r.1, r.2)
  | (n, .dir cs) :: t =>
    let r1 := copytreeList env (sp ++ [n]) cs
    let r2 := copytreeList env sp t
    ((n, .dir r1.1) :: r2.1, r1.2 || r2.2)
termination_by l => sizeOf l

/-- Models `copy_directory` (`shutil.copytree` wrapped in handlers):
bulk-clone the source directory at `sp` to the replica path `rp` currently
holding `dst`.  `copytree` onto an existing path raises `FileExistsError`
(caught); a partial failure still writes the successfully copied part but
logs a failure. -/
def copy_directory (env : Env) (sp rp : Path) (src : Node) (dst : Option Node) :
    Option Node × List Event :=
  match dst with
  | some d => (some d, [.copyDirFailed rp])
  | none =>
    match src with
    | .file _ _ => (none, [.copyDirFailed rp])
    | .dir cs =>
      let r := copytreeList env sp cs
      (some (.dir r.1), [if r.2 then .copyDirFailed rp else .copiedDir rp])

/-- Models `remove_file` (`os.remove` wrapped in handlers): `os.remove` of a
directory raises a caught `IsADirectoryError`; on failure the object stays. -/
def remove_file (env : Env) (rp : Path) (x : Node) : Option Node × List Event :=
  if env.removeFails rp then (some x, [.removeFileFailed rp])
  else
    match x with
    | .file _ _ => (none, [.removedFile rp])
    | .dir _ => (some x, [.removeFileFailed rp])

/-- Models `remove_directory` (`shutil.rmtree` wrapped in handlers):
`rmtree` of a file raises a caught `NotADirectoryError`; on failure the
object stays. -/
def remove_directory (env : Env) (rp : Path) (x : Node) : Option Node × List Event :=
  if env.removeFails rp then (some x, [.removeDirFailed rp])
  else
    match x with
    | .dir _ => (none, [.removedDir rp])
    | .file _ _ => (some x, [.removeDirFailed rp])

/-- The `filecmp` module cache: outcomes keyed by the two paths and both
stat signatures (size and mtime metadata). -/
abbrev Cache := List ((Path × Path × (Nat × Nat) × (Nat × Nat)) × Bool)

/-- `filecmp.clear_cache()`. -/
def clear_cache (_ : Cache) : Cache :=
  []

/-- Association lookup in the `filecmp` cache. -/
def lookupCache (c : Cache) (k : Path × Path × (Nat × Nat) × (Nat × Nat)) : Option Bool :=
  match c with
  | [] => none
  | (k', b) :: t => if k' == k then some b else lookupCache t k

/-- `filecmp.cmp(f1, f2, shallow=False)` on the objects `a` (at path `sp`)
and `b` (at path `rp`): if either object is not a regular file the stat
signature check returns `False` without reading; if the two sizes differ
(`if s1[1] != s2[1]: return False`) the comparison returns `False` without
opening either file; on a cache hit the cached outcome is returned without
reading; otherwise both files are opened and compared byte for byte — an
unreadable path raises there, and metadata plays no part in the outcome. -/
def filecmp_cmp (cache : Cache) (env : Env) (sp rp : Path) (a b : Node) : Except Path Bool :=
  match a, b with
  | .file c1 m1, .file c2 m2 =>
    if c1.length != c2.length then .ok false
    else
      match lookupCache cache (sp, rp, (c1.length, m1), (c2.length, m2)) with
      | some outcome => .ok outcome
      | none =>
        if env.cmpRaises sp then .error sp
        else if env.cmpRaises rp then .error rp
        else .ok (c1 == c2)
  | _, _ => .ok false

/-- Models `is_same_file`: `filecmp.clear_cache()` followed by
`filecmp.cmp(src, rpl, shallow=False)`.  The global `filecmp` cache is
passed explicitly and is cleared before the comparison, so the result never
depends on it.  The uncaught read exception is returned as `Except.error`
naming the unreadable path. -/
def is_same_file (cache : Cache) (env : Env) (sp rp : Path) (a b : Node) : Except Path Bool :=
  filecmp_cmp (clear_cache cache) env sp rp a b

/-- Models `copy_to_replica`: walk the source listing `src` (of the source
directory at path `sp`), reconciling each entry against the replica listing
`rpl` (of the replica directory at path `rp`) exactly as the Python `for`
loop does, threading the replica listing through the per-entry mutations.
The call to `is_same_file` has no exception handler on its call path, so a
comparison error aborts the whole traversal (`Except.error`).  The global
`filecmp` cache is passed as `[]`; `is_same_file` clears it first, so any
value is equivalent. -/
def copy_to_replica (env : Env) (sp rp : Path) (src rpl : Listing) :
    Except Path (Listing × List Event) :=
  match src with
  | [] => .ok (rpl, [])
  | (n, sn) :: rest =>
    let spn := sp ++ [n]
    let rpn := rp ++ [n]
    match lookupA rpl n, sn with
    | none, .file c m =>
      -- path absent in replica, source object is a file: copy_file
      let r := copy_file env spn rpn (.file c m) none
      let rpl1 := match r.1 with | some x => rpl ++ [(n, x)] | none => rpl
      (copy_to_replica env sp rp rest rpl1).map fun s => (s.1, r.2 ++ s.2)
    | none, .dir scs =>
      -- path absent in replica, source object is a directory: copy_directory
      let r := copy_directory env spn rpn (.dir scs) none
      let rpl1 := match r.1 with | some x => rpl ++ [(n, x)] | none => rpl
      (copy_to_replica env sp rp rest rpl1).map fun s => (s.1, r.2 ++ s.2)
    | some (.file c' m'), .file c m => do
      -- file in both: overwrite the replica file iff not is_same_file
      let same ← is_same_file [] env spn rpn (.file c m) (.file c' m')
      if same then copy_to_replica env sp rp rest rpl
      else
        let r := copy_file env spn rpn (.file c m) (some (.file c' m'))
        let s ← copy_to_replica env sp rp rest (updOpt rpl n r.1)
        .ok (s.1, r.2 ++ s.2)
    | some (.dir rcs), .file c m =>
      -- file in source, directory in replica: remove_directory then copy_file
      let r1 := remove_directory env rpn (.dir rcs)
      let r2 := copy_file env spn rpn (.file c m) r1.1
      (copy_to_replica env sp rp rest (updOpt rpl n r2.1)).map fun s =>
        (s.1, r1.2 ++ r2.2 ++ s.2)
    | some (.dir rcs), .dir scs => do
      -- directory in both: recurse
      let sub ← copy_to_replica env spn rpn scs rcs
      let s ← copy_to_replica env sp rp rest (updateA rpl n (.dir sub.1))
      .ok (s.1, sub.2 ++ s.2)
    | some (.file c' m'), .dir scs =>
      -- directory in source, file in replica: remove_file then copy_directory
      let r1 := remove_file env rpn (.file c' m')
      let r2 := copy_directory env spn rpn (.dir scs) r1.1
      (copy_to_replica env sp rp rest (updOpt rpl n r2.1)).map fun s =>
        (s.1, r1.2 ++ r2.2 ++ s.2)
termination_by sizeOf src

/-- Models `remove_from_replica`: walk the replica listing `rpl` (of the
replica directory at path `rp`); an entry with no same-named source path is
removed (file removal or recursive directory removal), an entry that is a
directory with an existing same-named source path recurses with the source
object at that path — which may be a regular file, below which no source
path exists. -/
def remove_from_replica (env : Env) (sp rp : Path) (src : Node) (rpl : Listing) :
    Listing × List Event :=
  match rpl with
  | [] => ([], [])
  | (n, rn) :: rest =>
    let spn := sp ++ [n]
    let rpn := rp ++ [n]
    let step : Option Node × List Event :=
      match childOf src n, rn with
      | none, .file c m => remove_file env rpn (.file c m)
      | none, .dir rcs => remove_directory env rpn (.dir rcs)
      | some s, .dir rcs =>
        let sub := remove_from_replica env spn rpn s rcs
        (some (.dir sub.1), sub.2)
      | some _, .file c m => (some (.file c m), [])
    let r := remove_from_replica env sp rp src rest
    ((match step.1 with | some x => (n, x) :: r.1 | none => r.1), step.2 ++ r.2)
termination_by sizeOf rpl

/-- Models `synch_folders`: the empty-tree fast paths, then the general
reconcile-then-prune composition.  A comparison exception propagates. -/
def synch_folders (env : Env) (sp rp : Path) (src rpl : Listing) :
    Except Path (Listing × List Event) :=
  if is_folder_empty src && is_folder_empty rpl then .ok (rpl, [])
  else if is_folder_empty src && !is_folder_empty rpl then
    .ok (remove_from_replica env sp rp (.dir src) rpl)
  else if !is_folder_empty src && is_folder_empty rpl then
    copy_to_replica env sp rp src rpl
  else do
    let s ← copy_to_replica env sp rp src rpl
    let r := remove_from_replica env sp rp (.dir src) s.1
    .ok (r.1, s.2 ++ r.2)

/-- The general (non-fast-path) case of `synch_folders`: run the Reconciler
(`copy_to_replica`) and then the Pruner (`remove_from_replica`) on the
roots, unconditionally. -/
def runGeneral (env : Env) (sp rp : Path) (src rpl : Listing) :
    Except Path (Listing × List Event) :=
  do
    let s ← copy_to_replica env sp rp src rpl
    let r := remove_from_replica env sp rp (.dir src) s.1
    .ok (r.1, s.2 ++ r.2)

/-- The outcome of one iteration of the `while True` loop in `main`. -/
inductive CycleResult where
  | exited (code : Nat) (rpl : Listing) (ev : List Event)
  | completed (rpl : Listing) (ev : List Event)
  | crashed (badPath : Path)
deriving Repr

/-- One iteration of the `while True` loop in `main`: if the path
`stop_sync.txt` exists under the source root the process logs the detection
and calls `sys.exit(0)` before touching anything — the replica is returned
unchanged with no operations; otherwise `synch_folders` runs, and an
uncaught comparison exception crashes the process (`crashed`). -/
def mainStep (env : Env) (sp rp : Path) (src rpl : Listing) : CycleResult :=
  if hasName src "stop_sync.txt" then .exited 0 rpl []
  else
    match synch_folders env sp rp src rpl with
    | .ok s => .completed s.1 s.2
    | .error p => .crashed p

mutual

/-- Well-formed listing: names are unique at every level (as `os.listdir`
guarantees). -/
def wfL : Listing → Bool
  | [] => true
  | (n, x) :: t => !hasName t n && wfN x && wfL t

/-- Well-formed node: every directory listing below has unique names. -/
def wfN : Node → Bool
  | .file _ _ => true
  | .dir cs => wfL cs

end

/-- Replica covers source: every source entry exists in the replica listing
with the same kind and, for files, the same content (metadata free); for
directories the children are covered recursively. -/
def covered : Listing → Listing → Bool
  | [], _ => true
  | (n, sn) :: t, r =>
    (match lookupA r n, sn with
     | some (.file c' _), .file c _ => c == c'
     | some (.dir rcs), .dir scs => covered scs rcs
     | _, _ => false) && covered t r
termination_by l _ => sizeOf l

/-- Every replica entry has a same-named source path, recursively through
directory pairs (the condition under which the Pruner removes nothing). -/
def subNames (src : Node) : Listing → Bool
  | [] => true
  | (n, rn) :: t =>
    (match childOf src n, rn with
     | none, _ => false
     | some s, .dir rcs => subNames s rcs
     | some _, .file _ _ => true) && subNames src t
termination_by l => sizeOf l

/-- The per-path agreement relation of the convergence property: a path
resolves in the source iff it resolves in the replica, to an object of the
same kind, with equal content for files. -/
def agreeAt (a b : Option Node) : Prop :=
  match a, b with
  | none, none => True
  | some (.file c _), some (.file c' _) => c = c'
  | some (.dir _), some (.dir _) => True
  | _, _ => False

/-! ### Association-list and monad lemmas -/

@[simp] theorem envOk_cmpRaises (p : Path) : Env.ok.cmpRaises p = false := rfl

@[simp] theorem envOk_copyFails (p : Path) : Env.ok.copyFails p = false := rfl

@[simp] theorem envOk_removeFails (p : Path) : Env.ok.removeFails p = false := rfl

@[simp] theorem bindExc_error {α β γ : Type} (e : α) (f : β → Except α γ) :
    (Except.error e >>= f) = Except.error e := rfl

@[simp] theorem bindExc_ok {α β γ : Type} (b : β) (f : β → Except α γ) :
    (Except.ok b >>= f) = f b := rfl

@[simp] theorem mapExc_error {α β γ : Type} (f : β → γ) (e : α) :
    Except.map f (Except.error e : Except α β) = Except.error e := rfl

@[simp] theorem mapExc_ok {α β γ : Type} (f : β → γ) (b : β) :
    Except.map f (Except.ok b : Except α β) = Except.ok (f b) := rfl

theorem mapExc_eq_ok {α β γ : Type} {f : β → γ} {x : Except α β} {y : γ} :
    Except.map f x = .ok y ↔ ∃ b, x = .ok b ∧ f b = y := by
  cases x <;> simp [Except.map]

theorem bindExc_eq_ok {α β γ : Type} {f : β → Except α γ} {x : Except α β} {y : γ} :
    (x >>= f) = .ok y ↔ ∃ b, x = .ok b ∧ f b = .ok y := by
  cases x <;> simp

@[simp] theorem lookupA_nil (n : String) : lookupA [] n = none := rfl

@[simp] theorem lookupA_cons (k : String) (v : Node) (t : Listing) (n : String) :
    lookupA ((k, v) :: t) n = if k == n then some v else lookupA t n := rfl

theorem lookupA_append (l1 l2 : Listing) (n : String) :
    lookupA (l1 ++ l2) n =
      match lookupA l1 n with
      | some v => some v
      | none => lookupA l2 n := by
  induction l1 with
  | nil => simp
  | cons h t ih =>
    obtain ⟨k, v⟩ := h
    by_cases hk : k = n <;> simp [hk, ih]

theorem hasName_of_mem {l : Listing} {n : String} {x : Node} (h : (n, x) ∈ l) :
    hasName l n = true := by
  induction l with
  | nil => simp at h
  | cons hd t ih =>
    obtain ⟨k, v⟩ := hd
    rcases List.mem_cons.1 h with h1 | h1
    · cases h1; simp [hasName]
    · by_cases hk : k = n <;> simp [hasName, hk] at ih ⊢ <;> exact ih h1

theorem mem_of_lookupA {l : Listing} {n : String} {x : Node} (h : lookupA l n = some x) :
    (n, x) ∈ l := by
  induction l with
  | nil => simp at h
  | cons hd t ih =>
    obtain ⟨k, v⟩ := hd
    by_cases hk : k = n <;> simp [hk] at h
    · cases hk; cases h; exact List.mem_cons_self _ _
    · exact List.mem_cons_of_mem _ (ih h)

theorem hasName_iff {l : Listing} {n : String} :
    hasName l n = true ↔ ∃ x, lookupA l n = some x := by
  simp [hasName, Option.isSome_iff_exists]

theorem hasName_eq_false {l : Listing} {n : String} :
    hasName l n = false ↔ lookupA l n = none := by
  rw [hasName]
  cases lookupA l n <;> simp

/-- Unfolding lemma for `wfL` on a cons cell. -/
@[simp] theorem wfL_cons (n : String) (x : Node) (t : Listing) :
    wfL ((n, x) :: t) = (!hasName t n && wfN x && wfL t) := by
  rw [wfL]

@[simp] theorem wfL_nil : wfL [] = true := by rw [wfL]

@[simp] theorem wfN_file (c : List Nat) (m : Nat) : wfN (.file c m) = true := by rw [wfN]

@[simp] theorem wfN_dir (cs : Listing) : wfN (.dir cs) = wfL cs := by rw [wfN]

theorem lookupA_of_mem_wf {l : Listing} {n : String} {x : Node}
    (hwf : wfL l = true) (h : (n, x) ∈ l) : lookupA l n = some x := by
  induction l with
  | nil => simp at h
  | cons hd t ih =>
    obtain ⟨k, v⟩ := hd
    simp only [wfL_cons, Bool.and_eq_true, Bool.not_eq_true'] at hwf
    rcases List.mem_cons.1 h with h1 | h1
    · cases h1; simp
    · have hk : k ≠ n := by
        intro hkn
        subst hkn
        rw [hasName_of_mem h1] at hwf
        simp at hwf
      simp [hk, ih hwf.2 h1]

theorem wfN_of_lookupA {l : Listing} {n : String} {x : Node}
    (hwf : wfL l = true) (h : lookupA l n = some x) : wfN x = true := by
  induction l with
  | nil => simp at h
  | cons hd t ih =>
    obtain ⟨k, v⟩ := hd
    simp only [wfL_cons, Bool.and_eq_true, Bool.not_eq_true'] at hwf
    by_cases hk : k = n <;> simp [hk] at h
    · cases h; exact hwf.1.2
    · exact ih hwf.2 h

theorem lookupA_updateA_ne {l : Listing} {k n : String} (w : Node) (h : k ≠ n) :
    lookupA (updateA l k w) n = lookupA l n := by
  induction l with
  | nil => simp [updateA]
  | cons hd t ih =>
    obtain ⟨k', v⟩ := hd
    by_cases hk : k' = k <;> by_cases hn : k' = n <;>
      simp_all [updateA]

theorem lookupA_updateA_self {l : Listing} {n : String} (w : Node) :
    lookupA (updateA l n w) n =
      match lookupA l n with
      | some _ => some w
      | none => none := by
  induction l with
  | nil => simp [updateA]
  | cons hd t ih =>
    obtain ⟨k, v⟩ := hd
    by_cases hk : k = n <;> simp [updateA, hk, ih]

theorem updateA_self {l : Listing} {n : String} {v : Node} (h : lookupA l n = some v) :
    updateA l n v = l := by
  induction l with
  | nil => rfl
  | cons hd t ih =>
    obtain ⟨k, v'⟩ := hd
    by_cases hk : k = n <;> simp [hk] at h <;> simp [updateA, hk]
    · exact h.symm
    · exact ih h

theorem lookupA_eraseA_ne {l : Listing} {k n : String} (h : k ≠ n) :
    lookupA (eraseA l k) n = lookupA l n := by
  induction l with
  | nil => simp [eraseA]
  | cons hd t ih =>
    obtain ⟨k', v⟩ := hd
    by_cases hk : k' = k <;> by_cases hn : k' = n <;> simp_all [eraseA]

theorem hasName_updateA {l : Listing} {k n : String} (w : Node) :
    hasName (updateA l k w) n = hasName l n := by
  by_cases hk : k = n
  · subst hk
    rw [hasName, hasName, lookupA_updateA_self]
    cases lookupA l k <;> simp
  · rw [hasName, hasName, lookupA_updateA_ne _ hk]

theorem wfL_updateA {l : Listing} {n : String} {w : Node}
    (hwf : wfL l = true) (hw : wfN w = true) : wfL (updateA l n w) = true := by
  induction l with
  | nil => simpa [updateA] using hwf
  | cons hd t ih =>
    obtain ⟨k, v⟩ := hd
    simp only [wfL_cons, Bool.and_eq_true, Bool.not_eq_true'] at hwf
    by_cases hk : k = n
    · subst hk
      simp [updateA, hasName_updateA]
      exact ⟨⟨hwf.1.1, hw⟩, hwf.2⟩
    · simp [updateA, hk, hasName_updateA]
      exact ⟨⟨hwf.1.1, hwf.1.2⟩, ih hwf.2⟩

theorem hasName_eraseA_ne {l : Listing} {k n : String} (h : k ≠ n) :
    hasName (eraseA l k) n = hasName l n := by
  rw [hasName, hasName, lookupA_eraseA_ne h]

theorem hasName_eraseA_imp {l : Listing} {k n : String}
    (h : hasName (eraseA l k) n = true) : hasName l n = true := by
  by_cases hk : k = n
  · subst hk
    induction l with
    | nil => simpa [eraseA] using h
    | cons hd t ih =>
      obtain ⟨k', v⟩ := hd
      by_cases hk' : k' = k
      · simp [hasName, hk']
      · simp only [eraseA, beq_iff_eq, hk', if_false] at h
        simp only [hasName, lookupA_cons, beq_iff_eq, hk', if_false] at h ⊢
        exact ih h
  · rwa [hasName_eraseA_ne hk] at h

theorem wfL_eraseA {l : Listing} {n : String} (hwf : wfL l = true) :
    wfL (eraseA l n) = true := by
  induction l with
  | nil => simpa [eraseA] using hwf
  | cons hd t ih =>
    obtain ⟨k, v⟩ := hd
    simp only [wfL_cons, Bool.and_eq_true, Bool.not_eq_true'] at hwf
    by_cases hk : k = n <;> simp [eraseA, hk]
    · exact hwf.2
    · refine ⟨⟨?_, hwf.1.2⟩, ih hwf.2⟩
      have := hwf.1.1
      by_cases hh : hasName (eraseA t n) k
      · rw [hasName_eraseA_imp hh] at this; simp at this
      · simpa using hh

theorem wfL_append_singleton {l : Listing} {n : String} {w : Node}
    (hwf : wfL l = true) (habs : hasName l n = false) (hw : wfN w = true) :
    wfL (l ++ [(n, w)]) = true := by
  induction l with
  | nil => simp [hasName, hw]
  | cons hd t ih =>
    obtain ⟨k, v⟩ := hd
    simp only [wfL_cons, Bool.and_eq_true, Bool.not_eq_true'] at hwf
    simp only [hasName, lookupA_cons] at habs
    by_cases hk : k = n
    · simp [hk] at habs
    · simp only [beq_iff_eq, hk, if_false] at habs
      simp only [List.cons_append, wfL_cons, Bool.and_eq_true, Bool.not_eq_true']
      refine ⟨⟨?_, hwf.1.2⟩, ih hwf.2 habs⟩
      have hnk : ¬n = k := fun hh => hk hh.symm
      rw [hasName] at hwf ⊢
      rw [lookupA_append]
      rcases h1 : lookupA t k with _ | x
      · simp [hnk]
      · rw [h1] at hwf; simp at hwf

theorem lookupA_append_singleton_self {l : Listing} {n : String} (w : Node)
    (h : lookupA l n = none) : lookupA (l ++ [(n, w)]) n = some w := by
  rw [lookupA_append, h]; simp

theorem lookupA_append_singleton_ne {l : Listing} {k n : String} (w : Node) (h : k ≠ n) :
    lookupA (l ++ [(k, w)]) n = lookupA l n := by
  rw [lookupA_append]
  cases lookupA l n <;> simp [h]

theorem rpl_ne_nil_of_lookupA {l : Listing} {n : String} {x : Node}
    (h : lookupA l n = some x) : is_folder_empty l = false := by
  cases l with
  | nil => simp at h
  | cons hd t => simp [is_folder_empty]

/-! ### C9: the comparator contract -/

theorem beq_false_of_length_ne {c c' : List Nat} (h : c.length ≠ c'.length) :
    (c == c') = false := by
  rw [beq_eq_false_iff_ne]
  intro he
  exact h (by rw [he])

/-- When no read raises, the comparator on two regular files returns
exactly their content equality (the size check agrees with it: lists of
different lengths are unequal). -/
theorem is_same_file_env_eval (env : Env) (sp rp : Path) (c : List Nat) (m : Nat)
    (c' : List Nat) (m' : Nat)
    (h1 : env.cmpRaises sp = false) (h2 : env.cmpRaises rp = false) :
    is_same_file [] env sp rp (.file c m) (.file c' m') = .ok (c == c') := by
  by_cases hlen : c.length = c'.length
  · simp [is_same_file, clear_cache, filecmp_cmp, lookupCache, h1, h2, hlen]
  · have hb : (c == c') = false := beq_false_of_length_ne hlen
    simp [is_same_file, clear_cache, filecmp_cmp, hlen, hb]

/-- A pair of regular files of different sizes compares unequal via the
stat size check, with no read and hence no exception, whatever the
environment. -/
theorem is_same_file_size_ne (env : Env) (sp rp : Path) (c : List Nat) (m : Nat)
    (c' : List Nat) (m' : Nat) (h : c.length ≠ c'.length) :
    is_same_file [] env sp rp (.file c m) (.file c' m') = .ok false := by
  simp [is_same_file, clear_cache, filecmp_cmp, h]

/-- A pair of regular files of equal sizes with an unreadable source path
makes the comparison raise. -/
theorem is_same_file_raise (env : Env) (sp rp : Path) (c : List Nat) (m : Nat)
    (c' : List Nat) (m' : Nat) (hlen : c.length = c'.length)
    (h : env.cmpRaises sp = true) :
    is_same_file [] env sp rp (.file c m) (.file c' m') = .error sp := by
  simp [is_same_file, clear_cache, filecmp_cmp, lookupCache, hlen, h]

/-- C9: `is_same_file` returns true iff both objects are regular files with
identical byte contents; metadata (the `meta` fields) never affects the
result, and the `filecmp` cache is invalidated before each comparison, so
the result is independent of any prior cache contents. -/
theorem c9_comparator_contract (cache : Cache) (env : Env) (sp rp : Path) (a b : Node) :
    is_same_file cache env sp rp a b = filecmp_cmp [] env sp rp a b ∧
    (env.cmpRaises sp = false → env.cmpRaises rp = false →
      (is_same_file cache env sp rp a b = .ok true ↔
        ∃ c m1 m2, a = .file c m1 ∧ b = .file c m2)) := by
  constructor
  · rfl
  · intro h1 h2
    cases a with
    | file c1 m1 =>
      cases b with
      | file c2 m2 =>
        have hcast : is_same_file cache env sp rp (Node.file c1 m1) (Node.file c2 m2) =
            is_same_file [] env sp rp (Node.file c1 m1) (Node.file c2 m2) := rfl
        rw [hcast, is_same_file_env_eval env sp rp c1 m1 c2 m2 h1 h2]
        constructor
        · intro h
          have : (c1 == c2) = true := by
            simpa using h
          exact ⟨c1, m1, m2, rfl, by rw [eq_of_beq this]⟩
        · rintro ⟨c, mm1, mm2, h3, h4⟩
          cases h3; cases h4
          simp
      | dir rcs =>
        simp [is_same_file, clear_cache, filecmp_cmp]
    | dir cs =>
      simp [is_same_file, clear_cache, filecmp_cmp]

theorem c9_comparator_contract_witness :
    is_same_file [] Env.ok ["src", "f"] ["rpl", "f"] (.file [1, 2] 0) (.file [1, 2] 7) =
      .ok true :=
  ((c9_comparator_contract [] Env.ok ["src", "f"] ["rpl", "f"]
      (.file [1, 2] 0) (.file [1, 2] 7)).2 rfl rfl).mpr ⟨[1, 2], 0, 7, rfl, rfl⟩

/-! ### C7: stop-signal precedence -/

/-- C7: if a file named `stop_sync.txt` exists in the source root at the
start of a cycle, the loop iteration performs no reconciliation and no
pruning (the replica is returned unchanged with no operations) and the
process exits with code 0. -/
theorem c7_stop_signal (env : Env) (sp rp : Path) (src rpl : Listing) (c : List Nat) (m : Nat)
    (h : lookupA src "stop_sync.txt" = some (.file c m)) :
    mainStep env sp rp src rpl = .exited 0 rpl [] := by
  unfold mainStep
  rw [hasName, h]
  rfl

theorem c7_stop_signal_witness :
    mainStep Env.ok ["s"] ["r"] [("stop_sync.txt", .file [] 0), ("a", .file [1] 0)]
      [("b", .file [2] 0)] = .exited 0 [("b", .file [2] 0)] [] :=
  c7_stop_signal Env.ok ["s"] ["r"] _ _ [] 0 rfl

/-! ### C2: a comparison failure aborts the cycle (the claim fails) -/

/-- C2 counterexample: with the source file `a` unreadable and `a` present
as a regular file on both sides, the cycle driver does not treat the
comparison failure as "not equal" and does not continue with the sibling
`b` — it propagates the exception and the cycle aborts with no result. -/
theorem c2_counterexample :
    synch_folders
      { cmpRaises := fun p => p == ["s", "a"], copyFails := fun _ => false,
        removeFails := fun _ => false }
      ["s"] ["r"]
      [("a", .file [1] 0), ("b", .file [2] 0)]
      [("a", .file [9] 0), ("b", .file [5] 0)] = .error ["s", "a"] := by
  rw [synch_folders]
  rw [copy_to_replica.eq_def]
  simp [is_same_file, clear_cache, filecmp_cmp, lookupCache, is_folder_empty]

/-- C2 amended: for a pair of same-named regular-file paths whose source
file is unreadable, what happens depends on the sizes.  If the two files
have equal sizes, the content comparison opens the files and raises an
exception with no handler on its call path: no copy attempt is made for
that pair and the cycle driver aborts, not reaching the remaining sibling
entries.  If the sizes differ, `filecmp.cmp`'s stat size check returns
"not equal" without reading either file, a copy attempt is forced for the
pair, and the traversal continues with the remaining sibling entries. -/
theorem c2_amended (env : Env) (sp rp : Path) (n : String) (c : List Nat) (m : Nat)
    (c' : List Nat) (m' : Nat) (rest rpl : Listing)
    (hr : lookupA rpl n = some (.file c' m')) :
    (c.length = c'.length → env.cmpRaises (sp ++ [n]) = true →
      synch_folders env sp rp ((n, .file c m) :: rest) rpl = .error (sp ++ [n])) ∧
    (c.length ≠ c'.length →
      copy_to_replica env sp rp ((n, .file c m) :: rest) rpl =
        (copy_to_replica env sp rp rest
            (updOpt rpl n
              (copy_file env (sp ++ [n]) (rp ++ [n]) (.file c m)
                (some (.file c' m'))).1)).bind
          fun s =>
            .ok (s.1,
              (copy_file env (sp ++ [n]) (rp ++ [n]) (.file c m)
                (some (.file c' m'))).2 ++ s.2)) := by
  constructor
  · intro hlen hb
    rw [synch_folders]
    rw [rpl_ne_nil_of_lookupA hr]
    rw [copy_to_replica.eq_def]
    simp [hr, is_same_file, clear_cache, filecmp_cmp, lookupCache, hlen, hb, is_folder_empty]
  · intro hlen
    rw [copy_to_replica.eq_def]
    simp only [hr]
    rw [is_same_file_size_ne env (sp ++ [n]) (rp ++ [n]) c m c' m' hlen]
    simp only [bindExc_ok, Bool.false_eq_true, if_false]
    rfl

theorem c2_amended_witness :
    synch_folders
      { cmpRaises := fun p => p == ["s", "a"], copyFails := fun _ => false,
        removeFails := fun _ => false }
      ["s"] ["r"] [("a", .file [1] 0)] [("a", .file [9] 4)] = .error ["s", "a"] :=
  (c2_amended _ ["s"] ["r"] "a" [1] 0 [9] 4 [] [("a", .file [9] 4)] rfl).1 rfl rfl

/-! ### C10: the prune pass under a source regular file -/

/-- Below a node with no children (a regular file, or an empty directory)
the prune pass removes every replica entry, when no removal fails. -/
theorem remove_all_no_src (sp rp : Path) (s : Node) (hs : ∀ k, childOf s k = none)
    (l : Listing) : ∃ ev, remove_from_replica Env.ok sp rp s l = ([], ev) := by
  induction l with
  | nil => exact ⟨[], by rw [remove_from_replica.eq_def]⟩
  | cons hd t ih =>
    obtain ⟨k, rn⟩ := hd
    obtain ⟨ev, hev⟩ := ih
    rw [remove_from_replica.eq_def]
    cases rn with
    | file c m =>
      exact ⟨Event.removedFile (rp ++ [k]) :: ev, by simp [hs k, remove_file, hev]⟩
    | dir rcs =>
      exact ⟨Event.removedDir (rp ++ [k]) :: ev, by simp [hs k, remove_directory, hev]⟩

/-- C10: when the prune pass meets a replica directory whose same-named
source path is a regular file, it recurses into the pair and removes every
child of the replica directory, but the replica directory itself survives
the pass. -/
theorem c10_prune_under_source_file (sp rp : Path) (src : Node) (rpl : Listing)
    (n : String) (c : List Nat) (m : Nat) (rcs : Listing)
    (hwf : wfL rpl = true)
    (hs : childOf src n = some (.file c m))
    (hr : lookupA rpl n = some (.dir rcs)) :
    lookupA (remove_from_replica Env.ok sp rp src rpl).1 n = some (.dir []) := by
  induction rpl with
  | nil => simp at hr
  | cons hd t ih =>
    obtain ⟨k, rn⟩ := hd
    simp only [wfL_cons, Bool.and_eq_true, Bool.not_eq_true'] at hwf
    by_cases hk : k = n
    · subst hk
      simp only [lookupA_cons, beq_self_eq_true, if_true] at hr
      cases hr
      obtain ⟨ev, hev⟩ := remove_all_no_src (sp ++ [k]) (rp ++ [k]) (.file c m)
        (fun _ => rfl) rcs
      rw [remove_from_replica.eq_def]
      simp [hs, hev]
    · simp only [lookupA_cons, beq_iff_eq, hk, if_false] at hr
      have htail := ih hwf.2 hr
      rw [remove_from_replica.eq_def]
      rcases rn with ⟨c2, m2⟩ | rcs2 <;>
        rcases hcs : childOf src k with _ | s2 <;>
          simp [hcs, remove_file, remove_directory, hk, htail]

theorem c10_prune_under_source_file_witness :
    lookupA (remove_from_replica Env.ok ["s"] ["r"]
      (.dir [("d", .file [7] 0)])
      [("d", .dir [("x", .file [1] 0), ("y", .dir [("z", .file [2] 0)])])]).1 "d" =
      some (.dir []) :=
  c10_prune_under_source_file ["s"] ["r"] _ _ "d" [7] 0
    [("x", .file [1] 0), ("y", .dir [("z", .file [2] 0)])] rfl rfl rfl

/-! ### C6: every operation targets a path under the replica root -/

theorem copy_file_paths {env : Env} {sp rp : Path} {src : Node} {dst : Option Node} :
    ∀ e ∈ (copy_file env sp rp src dst).2, ∃ q, e.path = rp ++ q := by
  intro e he
  unfold copy_file at he
  split at he
  · simp at he
    subst he
    exact ⟨[], by simp [Event.path]⟩
  · split at he <;> simp at he <;> subst he
    · exact ⟨[], by simp [Event.path]⟩
    · exact ⟨[basename sp], by simp [Event.path]⟩
    · exact ⟨[], by simp [Event.path]⟩

theorem copy_directory_paths {env : Env} {sp rp : Path} {src : Node} {dst : Option Node} :
    ∀ e ∈ (copy_directory env sp rp src dst).2, ∃ q, e.path = rp ++ q := by
  intro e he
  unfold copy_directory at he
  rcases dst with _ | d
  · rcases src with ⟨c, m⟩ | cs
    · simp at he
      subst he
      exact ⟨[], by simp [Event.path]⟩
    · simp at he
      subst he
      exact ⟨[], by split <;> simp [Event.path]⟩
  · simp at he
    subst he
    exact ⟨[], by simp [Event.path]⟩

theorem remove_file_paths {env : Env} {rp : Path} {x : Node} :
    ∀ e ∈ (remove_file env rp x).2, ∃ q, e.path = rp ++ q := by
  intro e he
  unfold remove_file at he
  split at he
  · simp at he; subst he; exact ⟨[], by simp [Event.path]⟩
  · rcases x with ⟨c, m⟩ | cs <;> simp at he <;> subst he <;> exact ⟨[], by simp [Event.path]⟩

theorem remove_directory_paths {env : Env} {rp : Path} {x : Node} :
    ∀ e ∈ (remove_directory env rp x).2, ∃ q, e.path = rp ++ q := by
  intro e he
  unfold remove_directory at he
  split at he
  · simp at he; subst he; exact ⟨[], by simp [Event.path]⟩
  · rcases x with ⟨c, m⟩ | cs <;> simp at he <;> subst he <;> exact ⟨[], by simp [Event.path]⟩

theorem copy_to_replica_paths (env : Env) (sp rp : Path) (src rpl : Listing) :
    ∀ res ev, copy_to_replica env sp rp src rpl = .ok (res, ev) →
      ∀ e ∈ ev, ∃ q, e.path = rp ++ q := by
  induction sp, rp, src, rpl using copy_to_replica.induct env with
  | case1 sp rp rpl =>
    intro res ev h e he
    rw [copy_to_replica.eq_def] at h
    simp only [Except.ok.injEq, Prod.mk.injEq] at h
    obtain ⟨h1, h2⟩ := h
    subst h2
    simp at he
  | case2 sp rp rpl n rest spn rpn c m hl r rpl1 ih =>
    intro res ev h e he
    rw [copy_to_replica.eq_def] at h
    simp only [hl, mapExc_eq_ok] at h
    obtain ⟨s, hrec, hfy⟩ := h
    simp only [Prod.mk.injEq] at hfy
    obtain ⟨h1, h2⟩ := hfy
    subst h2
    rcases List.mem_append.1 he with hm | hm
    · obtain ⟨q, hq⟩ := copy_file_paths e hm
      exact ⟨[n] ++ q, by rw [hq]; simp⟩
    · exact ih s.1 s.2 hrec e hm
  | case3 sp rp rpl n rest spn rpn scs hl r rpl1 ih =>
    intro res ev h e he
    rw [copy_to_replica.eq_def] at h
    simp only [hl, mapExc_eq_ok] at h
    obtain ⟨s, hrec, hfy⟩ := h
    simp only [Prod.mk.injEq] at hfy
    obtain ⟨h1, h2⟩ := hfy
    subst h2
    rcases List.mem_append.1 he with hm | hm
    · obtain ⟨q, hq⟩ := copy_directory_paths e hm
      exact ⟨[n] ++ q, by rw [hq]; simp⟩
    · exact ih s.1 s.2 hrec e hm
  | case4 sp rp rpl n rest spn rpn c' m' c m hl ih1 ih2 =>
    intro res ev h e he
    rw [copy_to_replica.eq_def] at h
    simp only [hl, bindExc_eq_ok] at h
    obtain ⟨b, hcmp, hb⟩ := h
    rcases b with _ | _
    · simp only [Bool.false_eq_true, if_false, bindExc_eq_ok] at hb
      obtain ⟨s, hrec, hok⟩ := hb
      simp only [Except.ok.injEq, Prod.mk.injEq] at hok
      obtain ⟨h1, h2⟩ := hok
      subst h2
      rcases List.mem_append.1 he with hm | hm
      · obtain ⟨q, hq⟩ := copy_file_paths e hm
        exact ⟨[n] ++ q, by rw [hq]; simp⟩
      · exact ih2 s.1 s.2 hrec e hm
    · simp only [if_true] at hb
      exact ih1 res ev hb e he
  | case5 sp rp rpl n rest spn rpn rcs c m hl r1 r2 ih =>
    intro res ev h e he
    rw [copy_to_replica.eq_def] at h
    simp only [hl, mapExc_eq_ok] at h
    obtain ⟨s, hrec, hfy⟩ := h
    simp only [Prod.mk.injEq] at hfy
    obtain ⟨h1, h2⟩ := hfy
    subst h2
    rcases List.mem_append.1 he with hm | hm
    · rcases List.mem_append.1 hm with hm2 | hm2
      · obtain ⟨q, hq⟩ := remove_directory_paths e hm2
        exact ⟨[n] ++ q, by rw [hq]; simp⟩
      · obtain ⟨q, hq⟩ := copy_file_paths e hm2
        exact ⟨[n] ++ q, by rw [hq]; simp⟩
    · exact ih s.1 s.2 hrec e hm
  | case6 sp rp rpl n rest spn rpn rcs scs hl ih1 ih2 =>
    intro res ev h e he
    rw [copy_to_replica.eq_def] at h
    simp only [hl, bindExc_eq_ok] at h
    obtain ⟨sub, hsub, hb⟩ := h
    obtain ⟨s, hrec, hok⟩ := hb
    simp only [Except.ok.injEq, Prod.mk.injEq] at hok
    obtain ⟨h1, h2⟩ := hok
    subst h2
    rcases List.mem_append.1 he with hm | hm
    · obtain ⟨q, hq⟩ := ih1 sub.1 sub.2 hsub e hm
      refine ⟨[n] ++ q, ?_⟩
      rw [hq]
      show (rp ++ [n]) ++ q = rp ++ ([n] ++ q)
      simp
    · exact ih2 sub s.1 s.2 hrec e hm
  | case7 sp rp rpl n rest spn rpn c' m' scs hl r1 r2 ih =>
    intro res ev h e he
    rw [copy_to_replica.eq_def] at h
    simp only [hl, mapExc_eq_ok] at h
    obtain ⟨s, hrec, hfy⟩ := h
    simp only [Prod.mk.injEq] at hfy
    obtain ⟨h1, h2⟩ := hfy
    subst h2
    rcases List.mem_append.1 he with hm | hm
    · rcases List.mem_append.1 hm with hm2 | hm2
      · obtain ⟨q, hq⟩ := remove_file_paths e hm2
        exact ⟨[n] ++ q, by rw [hq]; simp⟩
      · obtain ⟨q, hq⟩ := copy_directory_paths e hm2
        exact ⟨[n] ++ q, by rw [hq]; simp⟩
    · exact ih s.1 s.2 hrec e hm

theorem remove_from_replica_paths (env : Env) (sp rp : Path) (src : Node) (rpl : Listing) :
    ∀ e ∈ (remove_from_replica env sp rp src rpl).2, ∃ q, e.path = rp ++ q := by
  induction sp, rp, src, rpl using remove_from_replica.induct env with
  | case1 sp rp src =>
    intro e he
    rw [remove_from_replica.eq_def] at he
    simp at he
  | case2 sp rp src n rn rest spn rpn ihsub ihrest =>
    intro e he
    rw [remove_from_replica.eq_def] at he
    rcases hcs : childOf src n with _ | s <;> rcases rn with ⟨c, mm⟩ | rcs <;>
      simp [hcs] at he ihsub
    · rcases he with hm | hm
      · obtain ⟨q, hq⟩ := remove_file_paths e hm
        exact ⟨[n] ++ q, by rw [hq]; simp⟩
      · exact ihrest e hm
    · rcases he with hm | hm
      · obtain ⟨q, hq⟩ := remove_directory_paths e hm
        exact ⟨[n] ++ q, by rw [hq]; simp⟩
      · exact ihrest e hm
    · exact ihrest e he
    · rcases he with hm | hm
      · obtain ⟨q, hq⟩ := ihsub e hm
        refine ⟨[n] ++ q, ?_⟩
        rw [hq]
        show (rp ++ [n]) ++ q = rp ++ ([n] ++ q)
        simp
      · exact ihrest e hm

/-- C6: the reconciler and the pruner only ever create, overwrite or delete
at paths under the replica root: every logged operation of a completed
cycle names a path extending `rp` (in this embedding the source tree is
passed immutably, so it is unchanged by construction; this theorem checks
that every issued operation indeed targets the replica side). -/
theorem c6_replica_only_targets (env : Env) (sp rp : Path) (src rpl : Listing)
    (res : Listing) (ev : List Event)
    (h : synch_folders env sp rp src rpl = .ok (res, ev)) :
    ∀ e ∈ ev, ∃ q, e.path = rp ++ q := by
  intro e he
  unfold synch_folders at h
  split at h
  · simp only [Except.ok.injEq, Prod.mk.injEq] at h
    obtain ⟨h1, h2⟩ := h
    subst h2
    simp at he
  · split at h
    · simp only [Except.ok.injEq] at h
      have hm : e ∈ (remove_from_replica env sp rp (Node.dir src) rpl).2 := by
        rw [h]
        exact he
      exact remove_from_replica_paths env sp rp (.dir src) rpl e hm
    · split at h
      · exact copy_to_replica_paths env sp rp src rpl res ev h e he
      · rw [bindExc_eq_ok] at h
        obtain ⟨s, hcp, hok⟩ := h
        simp only [Except.ok.injEq, Prod.mk.injEq] at hok
        obtain ⟨h1, h2⟩ := hok
        subst h2
        rcases List.mem_append.1 he with hm | hm
        · exact copy_to_replica_paths env sp rp src rpl s.1 s.2 hcp e hm
        · exact remove_from_replica_paths env sp rp (.dir src) s.1 e hm

theorem c6_replica_only_targets_witness :
    ∃ q, Event.path (.copiedFile ["r", "a"]) = ["r"] ++ q :=
  c6_replica_only_targets Env.ok ["s"] ["r"] [("a", .file [1] 0)] []
    [("a", .file [1] 0)] [.copiedFile ["r", "a"]]
    (by rw [synch_folders]
        rw [copy_to_replica.eq_def]
        simp [copy_file, is_folder_empty]
        rw [copy_to_replica.eq_def]
        simp)
    (.copiedFile ["r", "a"]) (by simp)

/-! ### C5: one failing copy does not disturb the siblings -/

@[simp] theorem envOneBadCopy_cmpRaises (p0 p : Path) :
    (envOneBadCopy p0).cmpRaises p = false := rfl

@[simp] theorem envOneBadCopy_removeFails (p0 p : Path) :
    (envOneBadCopy p0).removeFails p = false := rfl

theorem envOneBadCopy_copyFails_self (p0 : Path) :
    (envOneBadCopy p0).copyFails p0 = true := by
  simp [envOneBadCopy]

theorem append_singleton_inj {sp : Path} {n k : String} :
    (sp ++ [n] = sp ++ [k]) ↔ n = k := by
  constructor
  · intro h
    have := List.append_cancel_left h
    simpa using this
  · intro h
    rw [h]

theorem envOneBadCopy_copyFails_ne {sp : Path} {n bad : String} (h : n ≠ bad) :
    (envOneBadCopy (sp ++ [bad])).copyFails (sp ++ [n]) = false := by
  simp only [envOneBadCopy]
  rw [beq_eq_false_iff_ne]
  intro hc
  exact h (append_singleton_inj.1 hc)

theorem hasName_cons' (k : String) (v : Node) (t : Listing) (n : String) :
    hasName ((k, v) :: t) n = (k == n || hasName t n) := by
  rw [hasName, hasName, lookupA_cons]
  by_cases h : k = n <;> simp [h]

/-! ### C8: the empty-tree fast paths refine the general case -/

@[simp] theorem childOf_file (c : List Nat) (m : Nat) (k : String) :
    childOf (.file c m) k = none := rfl

@[simp] theorem childOf_dir (cs : Listing) (k : String) :
    childOf (.dir cs) k = lookupA cs k := rfl

@[simp] theorem subNames_nil (s : Node) : subNames s [] = true := by
  rw [subNames]

theorem subNames_cons_noneF (s : Node) (n : String) (rn : Node) (t : Listing)
    (h : childOf s n = none) : subNames s ((n, rn) :: t) = false := by
  rw [subNames.eq_def]
  simp [h]

theorem subNames_cons_file (s : Node) (n : String) (c : List Nat) (mm : Nat) (t : Listing)
    (h : ∃ x, childOf s n = some x) :
    subNames s ((n, .file c mm) :: t) = subNames s t := by
  obtain ⟨x, hx⟩ := h
  rw [subNames.eq_def]
  simp [hx]

theorem subNames_cons_dir (s : Node) (n : String) (s2 : Node) (rcs t : Listing)
    (h : childOf s n = some s2) :
    subNames s ((n, .dir rcs) :: t) = (subNames s2 rcs && subNames s t) := by
  rw [subNames.eq_def]
  simp [h]

theorem subNames_append (s : Node) (a b : Listing) :
    subNames s (a ++ b) = (subNames s a && subNames s b) := by
  induction a with
  | nil => simp
  | cons hd t ih =>
    obtain ⟨n, rn⟩ := hd
    rcases hcs : childOf s n with _ | s2
    · rw [List.cons_append, subNames_cons_noneF s n rn _ hcs,
        subNames_cons_noneF s n rn _ hcs]
      simp
    · rcases rn with ⟨c, mm⟩ | rcs
      · rw [List.cons_append, subNames_cons_file s n c mm _ ⟨s2, hcs⟩,
          subNames_cons_file s n c mm _ ⟨s2, hcs⟩, ih]
      · rw [List.cons_append, subNames_cons_dir s n s2 rcs _ hcs,
          subNames_cons_dir s n s2 rcs _ hcs, ih, Bool.and_assoc]

/-- Evaluation of `copy_file` of a source file to an absent path. -/
theorem copy_file_none (env : Env) (sp rp : Path) (c : List Nat) (m : Nat) :
    copy_file env sp rp (.file c m) none =
      if env.copyFails sp then (none, [.copyFileFailed rp])
      else (some (.file c m), [.copiedFile rp]) := by
  unfold copy_file
  split <;> rfl

/-- Evaluation of `copy_file` of a source file over an existing replica
file. -/
theorem copy_file_over_file (env : Env) (sp rp : Path) (c : List Nat) (m : Nat)
    (c' : List Nat) (m' : Nat) :
    copy_file env sp rp (.file c m) (some (.file c' m')) =
      if env.copyFails sp then (some (.file c' m'), [.copyFileFailed rp])
      else (some (.file c m), [.copiedFile rp]) := by
  unfold copy_file
  split <;> rfl

/-- Evaluation of `copy_directory` of a source directory to an absent
path. -/
theorem copy_directory_none (env : Env) (sp rp : Path) (cs : Listing) :
    copy_directory env sp rp (.dir cs) none =
      (some (.dir (copytreeList env sp cs).1),
        [if (copytreeList env sp cs).2 then .copyDirFailed rp else .copiedDir rp]) := rfl

/-- Evaluation of `remove_file` on a regular file. -/
theorem remove_file_file (env : Env) (rp : Path) (c : List Nat) (m : Nat) :
    remove_file env rp (.file c m) =
      if env.removeFails rp then (some (.file c m), [.removeFileFailed rp])
      else (none, [.removedFile rp]) := by
  unfold remove_file
  split <;> rfl

/-- Evaluation of `remove_directory` on a directory. -/
theorem remove_directory_dir (env : Env) (rp : Path) (cs : Listing) :
    remove_directory env rp (.dir cs) =
      if env.removeFails rp then (some (.dir cs), [.removeDirFailed rp])
      else (none, [.removedDir rp]) := by
  unfold remove_directory
  split <;> rfl

/-- Every entry of the clone written by `copytree` has a same-named source
path of the cloned object, recursively: the Pruner finds nothing to remove
below a freshly cloned subtree, even a partially cloned one. -/
theorem copytree_sub (env : Env) (sp : Path) (cs : Listing) :
    ∀ S : Node, wfL cs = true → (∀ p ∈ cs, childOf S p.1 = some p.2) →
      subNames S (copytreeList env sp cs).1 = true := by
  induction sp, cs using copytreeList.induct env with
  | case1 sp =>
    intro S _ _
    rw [copytreeList.eq_def]
    simp
  | case2 sp n c m t hfail ih =>
    intro S hwf hmem
    rw [copytreeList.eq_def]
    simp only [wfL_cons, Bool.and_eq_true, Bool.not_eq_true'] at hwf
    simp only [hfail, if_true]
    exact ih S hwf.2 fun p hp => hmem p (List.mem_cons_of_mem _ hp)
  | case3 sp n c m t hfail ih =>
    intro S hwf hmem
    simp only [Bool.not_eq_true] at hfail
    rw [copytreeList.eq_def]
    simp only [wfL_cons, Bool.and_eq_true, Bool.not_eq_true'] at hwf
    simp only [hfail, Bool.false_eq_true, if_false]
    have hm : childOf S n = some (Node.file c m) :=
      hmem (n, Node.file c m) (List.mem_cons_self _ _)
    rw [subNames_cons_file S n c m _ ⟨_, hm⟩]
    exact ih S hwf.2 fun p hp => hmem p (List.mem_cons_of_mem _ hp)
  | case4 sp n cs2 t ih1 ih2 =>
    intro S hwf hmem
    rw [copytreeList.eq_def]
    simp only [wfL_cons, Bool.and_eq_true, Bool.not_eq_true'] at hwf
    have hm : childOf S n = some (Node.dir cs2) :=
      hmem (n, Node.dir cs2) (List.mem_cons_self _ _)
    have hwfcs : wfL cs2 = true := by simpa using hwf.1.2
    have h1 : subNames (Node.dir cs2) (copytreeList env (sp ++ [n]) cs2).1 = true :=
      ih1 (Node.dir cs2) hwfcs fun p hp => by
        simpa using lookupA_of_mem_wf hwfcs hp
    rw [subNames_cons_dir S n (Node.dir cs2) _ _ hm, h1]
    simp only [Bool.true_and]
    exact ih2 S hwf.2 fun p hp => hmem p (List.mem_cons_of_mem _ hp)

/-- The Pruner removes nothing from a replica listing in which every entry
has a same-named source path, recursively. -/
theorem remove_from_replica_sub (env : Env) (sp rp : Path) (s : Node) (l : Listing) :
    subNames s l = true → remove_from_replica env sp rp s l = (l, []) := by
  induction sp, rp, s, l using remove_from_replica.induct env with
  | case1 sp rp s =>
    intro _
    rw [remove_from_replica.eq_def]
  | case2 sp rp s n rn rest spn rpn ihsub ihrest =>
    intro hsub
    rw [remove_from_replica.eq_def]
    rcases hcs : childOf s n with _ | s2
    · rw [subNames_cons_noneF s n rn rest hcs] at hsub
      simp at hsub
    · rcases rn with ⟨c, mm⟩ | rcs
      · rw [subNames_cons_file s n c mm rest ⟨s2, hcs⟩] at hsub
        simp only [hcs]
        simp [ihrest hsub]
      · rw [subNames_cons_dir s n s2 rcs rest hcs] at hsub
        simp only [Bool.and_eq_true] at hsub
        simp only [hcs] at ihsub
        have ihsub2 : remove_from_replica env (sp ++ [n]) (rp ++ [n]) s2 rcs = (rcs, []) :=
          ihsub hsub.1
        simp only [hcs]
        simp [ihrest hsub.2, ihsub2]

/-- With no failing operation, `copytree` clones a directory exactly. -/
theorem copytree_exact (sp : Path) (cs : Listing) :
    copytreeList Env.ok sp cs = (cs, false) := by
  induction sp, cs using copytreeList.induct Env.ok with
  | case1 sp => rw [copytreeList.eq_def]
  | case2 sp n c m t hfail ih => simp at hfail
  | case3 sp n c m t hfail ih =>
    rw [copytreeList.eq_def]
    simp [ih]
  | case4 sp n cs2 t ih1 ih2 =>
    rw [copytreeList.eq_def]
    simp [ih1, ih2]

/-- Reconciling a source listing against a replica in which none of its
names exist only takes the bulk-copy branches: it never errors, and every
written entry has a same-named source path (recursively), whatever the
failure environment. -/
theorem copy_disjoint (env : Env) (sp rp : Path) :
    ∀ (src rpl : Listing) (S : Node),
      wfL src = true →
      (∀ k, hasName src k = true → lookupA rpl k = none) →
      (∀ p ∈ src, childOf S p.1 = some p.2) →
      subNames S rpl = true →
      ∃ res ev, copy_to_replica env sp rp src rpl = .ok (res, ev) ∧
        subNames S res = true := by
  intro src
  induction src with
  | nil =>
    intro rpl S _ _ _ hsub
    exact ⟨rpl, [], by rw [copy_to_replica.eq_def], hsub⟩
  | cons hd rest ih =>
    intro rpl S hwf hdisj hmem hsub
    obtain ⟨n, sn⟩ := hd
    simp only [wfL_cons, Bool.and_eq_true, Bool.not_eq_true'] at hwf
    have hlr : lookupA rpl n = none := hdisj n (by simp [hasName_cons'])
    have hdisjrest : ∀ k w, hasName rest k = true →
        lookupA (rpl ++ [(n, w)]) k = none := by
      intro k w hk
      have hkn : n ≠ k := by
        intro h
        subst h
        rw [hwf.1.1] at hk
        simp at hk
      rw [lookupA_append_singleton_ne _ hkn]
      exact hdisj k (by rw [hasName_cons']; simp [hk])
    have hmemrest : ∀ p ∈ rest, childOf S p.1 = some p.2 :=
      fun p hp => hmem p (List.mem_cons_of_mem _ hp)
    rcases sn with ⟨c, mm⟩ | scs
    · rw [copy_to_replica.eq_def]
      simp only [hlr, copy_file_none]
      rcases hf : env.copyFails (sp ++ [n]) with _ | _
      · simp only [hf, Bool.false_eq_true, if_false]
        obtain ⟨res, ev, hcp, hres⟩ := ih (rpl ++ [(n, Node.file c mm)]) S hwf.2
          (fun k hk => hdisjrest k _ hk) hmemrest
          (by have hm : childOf S n = some (Node.file c mm) :=
                hmem (n, Node.file c mm) (List.mem_cons_self _ _)
              rw [subNames_append, hsub, subNames_cons_file S n c mm [] ⟨_, hm⟩]
              simp)
        exact ⟨res, Event.copiedFile (rp ++ [n]) :: ev, by simp [hcp], hres⟩
      · simp only [hf, if_true]
        obtain ⟨res, ev, hcp, hres⟩ := ih rpl S hwf.2
          (fun k hk => hdisj k (by rw [hasName_cons']; simp [hk])) hmemrest hsub
        exact ⟨res, Event.copyFileFailed (rp ++ [n]) :: ev, by simp [hcp], hres⟩
    · rw [copy_to_replica.eq_def]
      simp only [hlr, copy_directory_none]
      have hwfscs : wfL scs = true := by simpa using hwf.1.2
      have hsubclone : subNames (Node.dir scs) (copytreeList env (sp ++ [n]) scs).1 = true :=
        copytree_sub env (sp ++ [n]) scs (Node.dir scs) hwfscs fun p hp => by
          simpa using lookupA_of_mem_wf hwfscs hp
      obtain ⟨res, ev, hcp, hres⟩ := ih
        (rpl ++ [(n, Node.dir (copytreeList env (sp ++ [n]) scs).1)]) S hwf.2
        (fun k hk => hdisjrest k _ hk) hmemrest
        (by have hm : childOf S n = some (Node.dir scs) :=
              hmem (n, Node.dir scs) (List.mem_cons_self _ _)
            rw [subNames_append, hsub,
              subNames_cons_dir S n (Node.dir scs) _ [] hm]
            simp [hsubclone])
      exact ⟨res,
        (if (copytreeList env (sp ++ [n]) scs).2 then Event.copyDirFailed (rp ++ [n])
          else Event.copiedDir (rp ++ [n])) :: ev,
        by simp [hcp], hres⟩

/-- With no failing operation, reconciling a source listing against a
replica in which none of its names exist appends an exact clone of the
source. -/
theorem copy_clone (sp rp : Path) :
    ∀ (src rpl : Listing),
      wfL src = true →
      (∀ k, hasName src k = true → lookupA rpl k = none) →
      ∃ ev, copy_to_replica Env.ok sp rp src rpl = .ok (rpl ++ src, ev) := by
  intro src
  induction src with
  | nil =>
    intro rpl _ _
    exact ⟨[], by rw [copy_to_replica.eq_def]; simp⟩
  | cons hd rest ih =>
    intro rpl hwf hdisj
    obtain ⟨n, sn⟩ := hd
    simp only [wfL_cons, Bool.and_eq_true, Bool.not_eq_true'] at hwf
    have hlr : lookupA rpl n = none := hdisj n (by simp [hasName_cons'])
    have hdisjrest : ∀ w, ∀ k, hasName rest k = true →
        lookupA (rpl ++ [(n, w)]) k = none := by
      intro w k hk
      have hkn : n ≠ k := by
        intro h
        subst h
        rw [hwf.1.1] at hk
        simp at hk
      rw [lookupA_append_singleton_ne _ hkn]
      exact hdisj k (by rw [hasName_cons']; simp [hk])
    rcases sn with ⟨c, mm⟩ | scs
    · obtain ⟨ev, hcp⟩ := ih (rpl ++ [(n, Node.file c mm)]) hwf.2 (hdisjrest _)
      refine ⟨Event.copiedFile (rp ++ [n]) :: ev, ?_⟩
      rw [copy_to_replica.eq_def]
      simp only [hlr, copy_file_none, envOk_copyFails, Bool.false_eq_true, if_false]
      simp [hcp]
    · obtain ⟨ev, hcp⟩ := ih (rpl ++ [(n, Node.dir scs)]) hwf.2 (hdisjrest _)
      refine ⟨Event.copiedDir (rp ++ [n]) :: ev, ?_⟩
      rw [copy_to_replica.eq_def]
      simp only [hlr, copy_directory_none, copytree_exact]
      simp [hcp]

/-- C8: the three empty-tree fast paths of `synch_folders` are behaviorally
equivalent to the general reconcile-then-prune composition, and do what the
spec says: both roots empty is a no-op, an empty source (with no failing
operation) empties the replica, an empty replica (with no failing
operation) receives an exact clone of the source. -/
theorem c8_fast_paths (sp rp : Path) (src rpl : Listing) (hwf : wfL src = true) :
    (∀ env : Env, src = [] ∨ rpl = [] →
      synch_folders env sp rp src rpl = runGeneral env sp rp src rpl) ∧
    (src = [] → rpl = [] → synch_folders Env.ok sp rp src rpl = .ok (rpl, [])) ∧
    (src = [] → ∃ ev, synch_folders Env.ok sp rp src rpl = .ok ([], ev)) ∧
    (rpl = [] → ∃ ev, synch_folders Env.ok sp rp src rpl = .ok (src, ev)) := by
  refine ⟨?_, ?_, ?_, ?_⟩
  · intro env hor
    rcases hor with h | h
    · subst h
      rcases rpl with _ | ⟨hd, t⟩
      · rw [synch_folders, runGeneral]
        rw [copy_to_replica.eq_def]
        simp [is_folder_empty]
        rw [remove_from_replica.eq_def]
      · rw [synch_folders, runGeneral]
        rw [copy_to_replica.eq_def]
        simp [is_folder_empty]
    · subst h
      obtain ⟨res, ev, hcp, hsub⟩ := copy_disjoint env sp rp src [] (.dir src) hwf
        (fun k _ => rfl) (fun p hp => by simpa using lookupA_of_mem_wf hwf hp) (by simp)
      rcases src with _ | ⟨hd, t⟩
      · rw [synch_folders, runGeneral]
        rw [copy_to_replica.eq_def]
        simp [is_folder_empty]
        rw [remove_from_replica.eq_def]
      · rw [synch_folders, runGeneral]
        simp only [is_folder_empty, List.isEmpty_cons, List.isEmpty_nil, Bool.false_and,
          Bool.not_false, Bool.and_true, Bool.false_eq_true, if_false, if_true]
        rw [hcp]
        simp only [bindExc_ok]
        rw [remove_from_replica_sub env sp rp (.dir (hd :: t)) res hsub]
        simp
  · intro h1 h2
    subst h1
    subst h2
    rw [synch_folders]
    simp [is_folder_empty]
  · intro h1
    subst h1
    rcases rpl with _ | ⟨hd, t⟩
    · exact ⟨[], by rw [synch_folders]; simp [is_folder_empty]⟩
    · obtain ⟨ev, hrm⟩ := remove_all_no_src sp rp (.dir []) (fun k => rfl) (hd :: t)
      refine ⟨ev, ?_⟩
      rw [synch_folders]
      simp [is_folder_empty, hrm]
  · intro h1
    subst h1
    obtain ⟨ev, hcp⟩ := copy_clone sp rp src [] hwf (fun k _ => rfl)
    rcases src with _ | ⟨hd, t⟩
    · exact ⟨[], by rw [synch_folders]; simp [is_folder_empty]⟩
    · refine ⟨ev, ?_⟩
      rw [synch_folders]
      simp only [is_folder_empty, List.isEmpty_cons, List.isEmpty_nil, Bool.false_and,
        Bool.not_false, Bool.and_true, Bool.false_eq_true, if_false, if_true]
      simpa using hcp

theorem c8_fast_paths_witness :
    synch_folders Env.ok ["s"] ["r"] [("a", .file [1] 0)] [] =
      runGeneral Env.ok ["s"] ["r"] [("a", .file [1] 0)] [] :=
  (c8_fast_paths ["s"] ["r"] [("a", .file [1] 0)] []
    (by simp [wfL, wfN, hasName])).1 Env.ok (Or.inr rfl)

/-! ### Structural lemmas for convergence and idempotence -/

@[simp] theorem covered_nil (r : Listing) : covered [] r = true := by
  rw [covered.eq_def]

theorem covered_cons (n : String) (sn : Node) (t r : Listing) :
    covered ((n, sn) :: t) r =
      ((match lookupA r n, sn with
        | some (.file c' _), .file c _ => c == c'
        | some (.dir rcs), .dir scs => covered scs rcs
        | _, _ => false) && covered t r) := by
  rcases hl : lookupA r n with _ | rn
  · rcases sn with ⟨c, mm⟩ | scs <;> (rw [covered.eq_def]; simp [hl])
  · rcases sn with ⟨c, mm⟩ | scs <;> rcases rn with ⟨c2, m2⟩ | rcs <;>
      (rw [covered.eq_def]; simp [hl])

theorem sizeOf_listing_pos (l : Listing) : 1 ≤ sizeOf l := by
  cases l <;> simp_arith

theorem sizeOf_entry_dir (n : String) (scs : Listing) (t : Listing) :
    sizeOf scs < sizeOf ((n, Node.dir scs) :: t) := by
  simp_arith

theorem sizeOf_tail (p : String × Node) (t : Listing) :
    sizeOf t < sizeOf (p :: t) := by
  rcases p with ⟨n, x⟩
  simp_arith

/-- A well-formed listing covers itself. -/
theorem covered_refl : ∀ (N : Nat) (s : Listing), sizeOf s ≤ N →
    wfL s = true → covered s s = true := by
  intro N
  induction N with
  | zero =>
    intro s hsz
    have := sizeOf_listing_pos s
    omega
  | succ N ih =>
    intro s hsz hwf
    -- the inner fold: every tail of s is covered by the full s
    suffices h : ∀ t : Listing, sizeOf t ≤ N + 1 →
        (∀ p ∈ t, p ∈ s) → wfL t = true → covered t s = true by
      exact h s hsz (fun p hp => hp) hwf
    intro t
    induction t with
    | nil =>
      intro _ _ _
      simp
    | cons hd t2 iht =>
      intro hsz2 hmem hwft
      obtain ⟨n, sn⟩ := hd
      simp only [wfL_cons, Bool.and_eq_true, Bool.not_eq_true'] at hwft
      have hls : lookupA s n = some sn :=
        lookupA_of_mem_wf hwf (hmem (n, sn) (List.mem_cons_self _ _))
      rw [covered_cons, hls]
      have htail : covered t2 s = true := by
        refine iht ?_ (fun p hp => hmem p (List.mem_cons_of_mem _ hp)) hwft.2
        have := sizeOf_tail (n, sn) t2
        omega
      rcases sn with ⟨c, mm⟩ | scs
      · simp [htail]
      · have hscs : covered scs scs = true := by
          refine ih scs ?_ (by simpa using hwft.1.2)
          have h1 := sizeOf_entry_dir n scs t2
          omega
        simp [htail, hscs]

/-- A well-formed listing is sub-named under itself. -/
theorem subNames_refl (s : Listing) (hwf : wfL s = true) :
    subNames (Node.dir s) s = true := by
  have h := copytree_sub Env.ok [] s (Node.dir s) hwf fun p hp => by
    simpa using lookupA_of_mem_wf hwf hp
  rwa [copytree_exact] at h

/-- In the no-failure environment, the comparator returns exactly the
content equality of the two files. -/
theorem is_same_file_ok_eval (sp rp : Path) (c : List Nat) (m : Nat)
    (c' : List Nat) (m' : Nat) :
    is_same_file [] Env.ok sp rp (.file c m) (.file c' m') = .ok (c == c') :=
  is_same_file_env_eval Env.ok sp rp c m c' m' rfl rfl

/-- Extraction from `covered`: each source entry has a matching replica
entry. -/
theorem covered_mem : ∀ (src r : Listing) (n : String) (sn : Node),
    covered src r = true → (n, sn) ∈ src →
    ∃ rn, lookupA r n = some rn ∧
      (match rn, sn with
       | .file c' _, .file c _ => c = c'
       | .dir rcs, .dir scs => covered scs rcs = true
       | _, _ => False) := by
  intro src
  induction src with
  | nil =>
    intro r n sn _ hmem
    simp at hmem
  | cons hd t ih =>
    intro r n sn hcov hmem
    obtain ⟨k, sk⟩ := hd
    rw [covered_cons] at hcov
    simp only [Bool.and_eq_true] at hcov
    rcases List.mem_cons.1 hmem with h1 | h1
    · injection h1 with h1a h1b
      subst h1a
      subst h1b
      rcases hl : lookupA r n with _ | rn
      · rw [hl] at hcov
        rcases sn with ⟨c, mm⟩ | scs <;> simp at hcov
      · refine ⟨rn, rfl, ?_⟩
        rw [hl] at hcov
        rcases sn with ⟨c, mm⟩ | scs <;> rcases rn with ⟨c2, m2⟩ | rcs <;>
          simp only [] at hcov ⊢
        · exact eq_of_beq hcov.1
        · exact absurd hcov.1 (by simp)
        · exact absurd hcov.1 (by simp)
        · exact hcov.1
    · exact ih r n sn hcov.2 h1

/-- Extraction from `subNames`: each replica entry has a source path, and
directory entries recurse. -/
theorem subNames_mem : ∀ (l : Listing) (S : Node) (n : String) (rn : Node),
    subNames S l = true → (n, rn) ∈ l →
    ∃ s2, childOf S n = some s2 ∧
      (match rn with
       | .dir rcs => subNames s2 rcs = true
       | .file _ _ => True) := by
  intro l
  induction l with
  | nil =>
    intro S n rn _ hmem
    simp at hmem
  | cons hd t ih =>
    intro S n rn hsub hmem
    obtain ⟨k, rk⟩ := hd
    rcases List.mem_cons.1 hmem with h1 | h1
    · injection h1 with h1a h1b
      subst h1a
      subst h1b
      rcases hcs : childOf S n with _ | s2
      · rw [subNames_cons_noneF S n rn t hcs] at hsub
        simp at hsub
      · refine ⟨s2, rfl, ?_⟩
        rcases rn with ⟨c, mm⟩ | rcs
        · simp
        · rw [subNames_cons_dir S n s2 rcs t hcs] at hsub
          simp only [Bool.and_eq_true] at hsub
          simpa using hsub.1
    · rcases hcs : childOf S k with _ | s2
      · rw [subNames_cons_noneF S k rk t hcs] at hsub
        simp at hsub
      · rcases rk with ⟨c, mm⟩ | rcs
        · rw [subNames_cons_file S k c mm t ⟨s2, hcs⟩] at hsub
          exact ih S n rn hsub h1
        · rw [subNames_cons_dir S k s2 rcs t hcs] at hsub
          simp only [Bool.and_eq_true] at hsub
          exact ih S n rn hsub.2 h1

/-- The Reconciler under the no-failure environment: it completes, the
result covers the source (same kinds, equal file contents), stays
well-formed, agrees with the input replica at every name absent from
the source, and logs no failure. -/
theorem copy_ok (sp rp : Path) (src rpl : Listing) :
    wfL src = true → wfL rpl = true →
    ∃ res ev, copy_to_replica Env.ok sp rp src rpl = .ok (res, ev) ∧
      covered src res = true ∧ wfL res = true ∧
      (∀ k, hasName src k = false → lookupA res k = lookupA rpl k) ∧
      ev.filter Event.isFailure = [] := by
  induction sp, rp, src, rpl using copy_to_replica.induct Env.ok with
  | case1 sp rp rpl =>
    intro _ hr
    exact ⟨rpl, [], by rw [copy_to_replica.eq_def], by simp, hr, fun k _ => rfl, rfl⟩
  | case2 sp rp rpl n rest spn rpn c m hl r rpl1 ih =>
    intro hs hr
    simp only [wfL_cons, Bool.and_eq_true, Bool.not_eq_true'] at hs
    have hrpl1 : wfL (rpl ++ [(n, Node.file c m)]) = true :=
      wfL_append_singleton hr (hasName_eq_false.2 hl) (by simp)
    obtain ⟨res, ev, hcp, hcov, hwres, hpres, hnof⟩ := ih hs.2 hrpl1
    have hcp2 : copy_to_replica Env.ok sp rp rest (rpl ++ [(n, Node.file c m)]) =
        .ok (res, ev) := hcp
    have hpres2 : ∀ k, hasName rest k = false →
        lookupA res k = lookupA (rpl ++ [(n, Node.file c m)]) k := hpres
    refine ⟨res, Event.copiedFile (rp ++ [n]) :: ev, ?_, ?_, hwres, ?_, ?_⟩
    · rw [copy_to_replica.eq_def]
      simp only [hl, copy_file_none, envOk_copyFails, Bool.false_eq_true, if_false]
      simp [hcp2]
    · have hres_n : lookupA res n = some (Node.file c m) := by
        rw [hpres2 n hs.1.1]
        exact lookupA_append_singleton_self _ hl
      rw [covered_cons, hres_n]
      simp [hcov]
    · intro k hk
      rw [hasName_cons'] at hk
      simp only [Bool.or_eq_false_iff, beq_eq_false_iff_ne] at hk
      rw [hpres2 k hk.2, lookupA_append_singleton_ne _ hk.1]
    · simp [List.filter_cons, Event.isFailure, hnof]
  | case3 sp rp rpl n rest spn rpn scs hl r rpl1 ih =>
    intro hs hr
    simp only [wfL_cons, Bool.and_eq_true, Bool.not_eq_true'] at hs
    have hwfscs : wfL scs = true := by simpa using hs.1.2
    have hclone : (copytreeList Env.ok (sp ++ [n]) scs).1 = scs := by
      rw [copytree_exact]
    have hrpl1 : wfL (rpl ++ [(n, Node.dir (copytreeList Env.ok (sp ++ [n]) scs).1)]) =
        true := by
      rw [hclone]
      exact wfL_append_singleton hr (hasName_eq_false.2 hl) (by simpa using hwfscs)
    obtain ⟨res, ev, hcp, hcov, hwres, hpres, hnof⟩ := ih hs.2 hrpl1
    have hcp2 : copy_to_replica Env.ok sp rp rest
        (rpl ++ [(n, Node.dir (copytreeList Env.ok (sp ++ [n]) scs).1)]) =
        .ok (res, ev) := hcp
    have hpres2 : ∀ k, hasName rest k = false →
        lookupA res k =
          lookupA (rpl ++ [(n, Node.dir (copytreeList Env.ok (sp ++ [n]) scs).1)]) k :=
      hpres
    rw [hclone] at hcp2 hpres2
    refine ⟨res, Event.copiedDir (rp ++ [n]) :: ev, ?_, ?_, hwres, ?_, ?_⟩
    · rw [copy_to_replica.eq_def]
      simp only [hl, copy_directory_none, copytree_exact]
      simp [hcp2]
    · have hres_n : lookupA res n = some (Node.dir scs) := by
        rw [hpres2 n hs.1.1]
        exact lookupA_append_singleton_self _ hl
      rw [covered_cons, hres_n]
      simp [hcov, covered_refl (sizeOf scs) scs le_rfl hwfscs]
    · intro k hk
      rw [hasName_cons'] at hk
      simp only [Bool.or_eq_false_iff, beq_eq_false_iff_ne] at hk
      rw [hpres2 k hk.2, lookupA_append_singleton_ne _ hk.1]
    · simp [List.filter_cons, Event.isFailure, hnof]
  | case4 sp rp rpl n rest spn rpn c' m' c m hl ih1 ih2 =>
    intro hs hr
    simp only [wfL_cons, Bool.and_eq_true, Bool.not_eq_true'] at hs
    rcases hbeq : (c == c') with _ | _
    · have hupd : wfL (updateA rpl n (Node.file c m)) = true :=
        wfL_updateA hr (by simp)
      obtain ⟨res, ev, hcp, hcov, hwres, hpres, hnof⟩ := ih2 hs.2 hupd
      have hcp2 : copy_to_replica Env.ok sp rp rest (updateA rpl n (Node.file c m)) =
          .ok (res, ev) := hcp
      have hpres2 : ∀ k, hasName rest k = false →
          lookupA res k = lookupA (updateA rpl n (Node.file c m)) k := hpres
      refine ⟨res, Event.copiedFile (rp ++ [n]) :: ev, ?_, ?_, hwres, ?_, ?_⟩
      · rw [copy_to_replica.eq_def]
        simp only [hl, is_same_file_ok_eval, hbeq, bindExc_ok, Bool.false_eq_true,
          if_false, copy_file_over_file, envOk_copyFails]
        simp [hcp2, updOpt]
      · have hres_n : lookupA res n = some (Node.file c m) := by
          rw [hpres2 n hs.1.1, lookupA_updateA_self, hl]
        rw [covered_cons, hres_n]
        simp [hcov]
      · intro k hk
        rw [hasName_cons'] at hk
        simp only [Bool.or_eq_false_iff, beq_eq_false_iff_ne] at hk
        rw [hpres2 k hk.2, lookupA_updateA_ne _ hk.1]
      · simp [List.filter_cons, Event.isFailure, hnof]
    · obtain ⟨res, ev, hcp, hcov, hwres, hpres, hnof⟩ := ih1 hs.2 hr
      refine ⟨res, ev, ?_, ?_, hwres, ?_, hnof⟩
      · rw [copy_to_replica.eq_def]
        simp only [hl, is_same_file_ok_eval, hbeq, bindExc_ok, if_true]
        exact hcp
      · have hres_n : lookupA res n = some (Node.file c' m') := by
          rw [hpres n hs.1.1, hl]
        rw [covered_cons, hres_n]
        simp [hcov, hbeq]
      · intro k hk
        rw [hasName_cons'] at hk
        simp only [Bool.or_eq_false_iff, beq_eq_false_iff_ne] at hk
        exact hpres k hk.2
  | case5 sp rp rpl n rest spn rpn rcs c m hl r1 r2 ih =>
    intro hs hr
    simp only [wfL_cons, Bool.and_eq_true, Bool.not_eq_true'] at hs
    have hupd : wfL (updateA rpl n (Node.file c m)) = true :=
      wfL_updateA hr (by simp)
    obtain ⟨res, ev, hcp, hcov, hwres, hpres, hnof⟩ := ih hs.2 hupd
    have hcp2 : copy_to_replica Env.ok sp rp rest (updateA rpl n (Node.file c m)) =
        .ok (res, ev) := hcp
    have hpres2 : ∀ k, hasName rest k = false →
        lookupA res k = lookupA (updateA rpl n (Node.file c m)) k := hpres
    refine ⟨res, Event.removedDir (rp ++ [n]) :: Event.copiedFile (rp ++ [n]) :: ev,
      ?_, ?_, hwres, ?_, ?_⟩
    · rw [copy_to_replica.eq_def]
      simp only [hl, remove_directory_dir, envOk_removeFails, Bool.false_eq_true,
        if_false, copy_file_none, envOk_copyFails]
      simp [hcp2, updOpt]
    · have hres_n : lookupA res n = some (Node.file c m) := by
        rw [hpres2 n hs.1.1, lookupA_updateA_self, hl]
      rw [covered_cons, hres_n]
      simp [hcov]
    · intro k hk
      rw [hasName_cons'] at hk
      simp only [Bool.or_eq_false_iff, beq_eq_false_iff_ne] at hk
      rw [hpres2 k hk.2, lookupA_updateA_ne _ hk.1]
    · simp [List.filter_cons, Event.isFailure, hnof]
  | case6 sp rp rpl n rest spn rpn rcs scs hl ih1 ih2 =>
    intro hs hr
    simp only [wfL_cons, Bool.and_eq_true, Bool.not_eq_true'] at hs
    have hwfscs : wfL scs = true := by simpa using hs.1.2
    have hwfrcs : wfL rcs = true := by simpa using wfN_of_lookupA hr hl
    obtain ⟨res1, ev1, hcpsub, hcovsub, hwsub, hpressub, hnofsub⟩ := ih1 hwfscs hwfrcs
    have hcpsub2 : copy_to_replica Env.ok (sp ++ [n]) (rp ++ [n]) scs rcs =
        .ok (res1, ev1) := hcpsub
    have hupd : wfL (updateA rpl n (Node.dir res1)) = true :=
      wfL_updateA hr (by simpa using hwsub)
    obtain ⟨res, ev, hcp, hcov, hwres, hpres, hnof⟩ := ih2 (res1, ev1) hs.2 hupd
    have hcp2 : copy_to_replica Env.ok sp rp rest (updateA rpl n (Node.dir res1)) =
        .ok (res, ev) := hcp
    have hpres2 : ∀ k, hasName rest k = false →
        lookupA res k = lookupA (updateA rpl n (Node.dir res1)) k := hpres
    refine ⟨res, ev1 ++ ev, ?_, ?_, hwres, ?_, ?_⟩
    · rw [copy_to_replica.eq_def]
      simp only [hl, hcpsub2, bindExc_ok]
      simp [hcp2]
    · have hres_n : lookupA res n = some (Node.dir res1) := by
        rw [hpres2 n hs.1.1, lookupA_updateA_self, hl]
      rw [covered_cons, hres_n]
      simp [hcov, hcovsub]
    · intro k hk
      rw [hasName_cons'] at hk
      simp only [Bool.or_eq_false_iff, beq_eq_false_iff_ne] at hk
      rw [hpres2 k hk.2, lookupA_updateA_ne _ hk.1]
    · simp [List.filter_append, hnofsub, hnof]
  | case7 sp rp rpl n rest spn rpn c' m' scs hl r1 r2 ih =>
    intro hs hr
    simp only [wfL_cons, Bool.and_eq_true, Bool.not_eq_true'] at hs
    have hwfscs : wfL scs = true := by simpa using hs.1.2
    have hclone : (copytreeList Env.ok (sp ++ [n]) scs).1 = scs := by
      rw [copytree_exact]
    have hupd : wfL (updateA rpl n (Node.dir (copytreeList Env.ok (sp ++ [n]) scs).1)) =
        true := by
      rw [hclone]
      exact wfL_updateA hr (by simpa using hwfscs)
    obtain ⟨res, ev, hcp, hcov, hwres, hpres, hnof⟩ := ih hs.2 hupd
    have hcp2 : copy_to_replica Env.ok sp rp rest
        (updateA rpl n (Node.dir (copytreeList Env.ok (sp ++ [n]) scs).1)) =
        .ok (res, ev) := hcp
    have hpres2 : ∀ k, hasName rest k = false →
        lookupA res k =
          lookupA (updateA rpl n (Node.dir (copytreeList Env.ok (sp ++ [n]) scs).1)) k :=
      hpres
    rw [hclone] at hcp2 hpres2
    refine ⟨res, Event.removedFile (rp ++ [n]) :: Event.copiedDir (rp ++ [n]) :: ev,
      ?_, ?_, hwres, ?_, ?_⟩
    · rw [copy_to_replica.eq_def]
      simp only [hl, remove_file_file, envOk_removeFails, Bool.false_eq_true,
        if_false, copy_directory_none, copytree_exact]
      simp [hcp2, updOpt]
    · have hres_n : lookupA res n = some (Node.dir scs) := by
        rw [hpres2 n hs.1.1, lookupA_updateA_self, hl]
      rw [covered_cons, hres_n]
      simp [hcov, covered_refl (sizeOf scs) scs le_rfl hwfscs]
    · intro k hk
      rw [hasName_cons'] at hk
      simp only [Bool.or_eq_false_iff, beq_eq_false_iff_ne] at hk
      rw [hpres2 k hk.2, lookupA_updateA_ne _ hk.1]
    · simp [List.filter_cons, Event.isFailure, hnof]

/-- `copytree` under an environment whose copies cannot fail strictly below
the clone root clones exactly, as under the no-failure environment. -/
theorem copytree_env_ok (env : Env) : ∀ (sp : Path) (cs : Listing),
    (∀ q : Path, q ≠ [] → env.copyFails (sp ++ q) = false) →
    copytreeList env sp cs = (cs, false) := by
  intro sp cs
  induction sp, cs using copytreeList.induct env with
  | case1 sp =>
    intro _
    rw [copytreeList.eq_def]
  | case2 sp n c m t hfail ih =>
    intro h
    rw [h [n] (by simp)] at hfail
    simp at hfail
  | case3 sp n c m t hfail ih =>
    intro h
    rw [copytreeList.eq_def]
    simp [ih h, h [n] (by simp)]
  | case4 sp n cs2 t ih1 ih2 =>
    intro h
    rw [copytreeList.eq_def]
    have h1 : ∀ q : Path, q ≠ [] → env.copyFails (sp ++ [n] ++ q) = false := by
      intro q _
      have h2 := h ([n] ++ q) (by simp)
      rwa [← List.append_assoc] at h2
    simp [ih1 h1, ih2 h]

/-- The Reconciler under an environment whose comparisons and removals
never fail, and whose copies cannot fail at or below any name of the
source listing, behaves exactly as under the no-failure environment. -/
theorem copy_env_ok (env : Env)
    (hcmp : ∀ p, env.cmpRaises p = false)
    (hrm : ∀ p, env.removeFails p = false) :
    ∀ (N : Nat) (src : Listing), sizeOf src ≤ N → ∀ (sp rp : Path) (rpl : Listing),
    (∀ (k : String) (q : Path), hasName src k = true →
      env.copyFails (sp ++ [k] ++ q) = false) →
    copy_to_replica env sp rp src rpl = copy_to_replica Env.ok sp rp src rpl := by
  intro N
  induction N with
  | zero =>
    intro src hsz
    have := sizeOf_listing_pos src
    omega
  | succ N ih =>
    intro src hsz sp rp rpl hcf
    rcases src with _ | ⟨⟨n, sn⟩, rest⟩
    · rw [copy_to_replica.eq_def]
      conv_rhs => rw [copy_to_replica.eq_def]
    · have hme : env.copyFails (sp ++ [n]) = false := by
        have h1 := hcf n [] (by rw [hasName_cons']; simp)
        simpa using h1
      have hcf' : ∀ (k : String) (q : Path), hasName rest k = true →
          env.copyFails (sp ++ [k] ++ q) = false := fun k q hk =>
        hcf k q (by rw [hasName_cons']; simp [hk])
      have hszrest : sizeOf rest ≤ N := by
        have := sizeOf_tail (n, sn) rest
        omega
      rcases hl : lookupA rpl n with _ | rn
      · rcases sn with ⟨c, m⟩ | scs
        · rw [copy_to_replica.eq_def]
          conv_rhs => rw [copy_to_replica.eq_def]
          simp only [hl, copy_file_none, hme, envOk_copyFails, Bool.false_eq_true,
            if_false]
          rw [ih rest hszrest sp rp (rpl ++ [(n, Node.file c m)]) hcf']
        · have hclone : copytreeList env (sp ++ [n]) scs = (scs, false) := by
            apply copytree_env_ok
            intro q hq
            exact hcf n q (by rw [hasName_cons']; simp)
          rw [copy_to_replica.eq_def]
          conv_rhs => rw [copy_to_replica.eq_def]
          simp only [hl, copy_directory_none, hclone, copytree_exact,
            Bool.false_eq_true, if_false]
          rw [ih rest hszrest sp rp (rpl ++ [(n, Node.dir scs)]) hcf']
      · rcases rn with ⟨c', m'⟩ | rcs
        · rcases sn with ⟨c, m⟩ | scs
          · rcases hbeq : (c == c') with _ | _
            · rw [copy_to_replica.eq_def]
              conv_rhs => rw [copy_to_replica.eq_def]
              simp only [hl]
              rw [is_same_file_env_eval env (sp ++ [n]) (rp ++ [n]) c m c' m'
                (hcmp _) (hcmp _), is_same_file_ok_eval]
              simp only [hbeq, bindExc_ok, Bool.false_eq_true, if_false,
                copy_file_over_file, hme, envOk_copyFails, updOpt]
              rw [ih rest hszrest sp rp (updateA rpl n (Node.file c m)) hcf']
            · rw [copy_to_replica.eq_def]
              conv_rhs => rw [copy_to_replica.eq_def]
              simp only [hl]
              rw [is_same_file_env_eval env (sp ++ [n]) (rp ++ [n]) c m c' m'
                (hcmp _) (hcmp _), is_same_file_ok_eval]
              simp only [hbeq, bindExc_ok, if_true]
              exact ih rest hszrest sp rp rpl hcf'
          · have hclone : copytreeList env (sp ++ [n]) scs = (scs, false) := by
              apply copytree_env_ok
              intro q hq
              exact hcf n q (by rw [hasName_cons']; simp)
            rw [copy_to_replica.eq_def]
            conv_rhs => rw [copy_to_replica.eq_def]
            simp only [hl, remove_file_file, hrm, envOk_removeFails,
              Bool.false_eq_true, if_false, copy_directory_none, hclone,
              copytree_exact, updOpt]
            rw [ih rest hszrest sp rp (updateA rpl n (Node.dir scs)) hcf']
        · rcases sn with ⟨c, m⟩ | scs
          · rw [copy_to_replica.eq_def]
            conv_rhs => rw [copy_to_replica.eq_def]
            simp only [hl, remove_directory_dir, hrm, envOk_removeFails,
              Bool.false_eq_true, if_false, copy_file_none, hme, envOk_copyFails,
              updOpt]
            rw [ih rest hszrest sp rp (updateA rpl n (Node.file c m)) hcf']
          · have hsub : copy_to_replica env (sp ++ [n]) (rp ++ [n]) scs rcs =
                copy_to_replica Env.ok (sp ++ [n]) (rp ++ [n]) scs rcs := by
              refine ih scs ?_ (sp ++ [n]) (rp ++ [n]) rcs ?_
              · have h1 := sizeOf_entry_dir n scs rest
                omega
              · intro k q hk
                have h1 := hcf n ([k] ++ q) (by rw [hasName_cons']; simp)
                simpa [List.append_assoc] using h1
            rw [copy_to_replica.eq_def]
            conv_rhs => rw [copy_to_replica.eq_def]
            simp only [hl, hsub]
            rcases hres : copy_to_replica Env.ok (sp ++ [n]) (rp ++ [n]) scs rcs
              with p | sub
            · simp [hres]
            · simp only [hres, bindExc_ok]
              rw [ih rest hszrest sp rp (updateA rpl n (Node.dir sub.1)) hcf']

/-- With no comparison raising, the Reconciler always returns a result:
per-entry copy and removal failures are caught, logged, and never abort
the traversal. -/
theorem copy_total (env : Env) (hcmp : ∀ p, env.cmpRaises p = false) :
    ∀ (N : Nat) (src : Listing), sizeOf src ≤ N → ∀ (sp rp : Path) (rpl : Listing),
    ∃ res ev, copy_to_replica env sp rp src rpl = .ok (res, ev) := by
  intro N
  induction N with
  | zero =>
    intro src hsz
    have := sizeOf_listing_pos src
    omega
  | succ N ih =>
    intro src hsz sp rp rpl
    rcases src with _ | ⟨⟨n, sn⟩, rest⟩
    · exact ⟨rpl, [], by rw [copy_to_replica.eq_def]⟩
    · have hszrest : sizeOf rest ≤ N := by
        have := sizeOf_tail (n, sn) rest
        omega
      rcases hl : lookupA rpl n with _ | rn
      · rcases sn with ⟨c, m⟩ | scs
        · rcases hx : (copy_file env (sp ++ [n]) (rp ++ [n]) (Node.file c m) none).1
            with _ | x
          · obtain ⟨res, ev, hcp⟩ := ih rest hszrest sp rp rpl
            rw [copy_to_replica.eq_def]
            simp only [hl, hx]
            rw [hcp]
            exact ⟨res, _, rfl⟩
          · obtain ⟨res, ev, hcp⟩ := ih rest hszrest sp rp (rpl ++ [(n, x)])
            rw [copy_to_replica.eq_def]
            simp only [hl, hx]
            rw [hcp]
            exact ⟨res, _, rfl⟩
        · rcases hx : (copy_directory env (sp ++ [n]) (rp ++ [n]) (Node.dir scs)
              none).1 with _ | x
          · obtain ⟨res, ev, hcp⟩ := ih rest hszrest sp rp rpl
            rw [copy_to_replica.eq_def]
            simp only [hl, hx]
            rw [hcp]
            exact ⟨res, _, rfl⟩
          · obtain ⟨res, ev, hcp⟩ := ih rest hszrest sp rp (rpl ++ [(n, x)])
            rw [copy_to_replica.eq_def]
            simp only [hl, hx]
            rw [hcp]
            exact ⟨res, _, rfl⟩
      · rcases rn with ⟨c', m'⟩ | rcs
        · rcases sn with ⟨c, m⟩ | scs
          · rcases hbeq : (c == c') with _ | _
            · rcases hx : (copy_file env (sp ++ [n]) (rp ++ [n]) (Node.file c m)
                  (some (Node.file c' m'))).1 with _ | x
              · obtain ⟨res, ev, hcp⟩ := ih rest hszrest sp rp (eraseA rpl n)
                rw [copy_to_replica.eq_def]
                simp only [hl]
                rw [is_same_file_env_eval env (sp ++ [n]) (rp ++ [n]) c m c' m'
                  (hcmp _) (hcmp _)]
                simp only [hbeq, bindExc_ok, Bool.false_eq_true, if_false, hx, updOpt]
                rw [hcp]
                exact ⟨res, _, rfl⟩
              · obtain ⟨res, ev, hcp⟩ := ih rest hszrest sp rp (updateA rpl n x)
                rw [copy_to_replica.eq_def]
                simp only [hl]
                rw [is_same_file_env_eval env (sp ++ [n]) (rp ++ [n]) c m c' m'
                  (hcmp _) (hcmp _)]
                simp only [hbeq, bindExc_ok, Bool.false_eq_true, if_false, hx, updOpt]
                rw [hcp]
                exact ⟨res, _, rfl⟩
            · obtain ⟨res, ev, hcp⟩ := ih rest hszrest sp rp rpl
              rw [copy_to_replica.eq_def]
              simp only [hl]
              rw [is_same_file_env_eval env (sp ++ [n]) (rp ++ [n]) c m c' m'
                (hcmp _) (hcmp _)]
              simp only [hbeq, bindExc_ok, if_true]
              exact ⟨res, ev, hcp⟩
          · rcases hx : (copy_directory env (sp ++ [n]) (rp ++ [n]) (Node.dir scs)
                (remove_file env (rp ++ [n]) (Node.file c' m')).1).1 with _ | x
            · obtain ⟨res, ev, hcp⟩ := ih rest hszrest sp rp (eraseA rpl n)
              rw [copy_to_replica.eq_def]
              simp only [hl, hx, updOpt]
              rw [hcp]
              exact ⟨res, _, rfl⟩
            · obtain ⟨res, ev, hcp⟩ := ih rest hszrest sp rp (updateA rpl n x)
              rw [copy_to_replica.eq_def]
              simp only [hl, hx, updOpt]
              rw [hcp]
              exact ⟨res, _, rfl⟩
        · rcases sn with ⟨c, m⟩ | scs
          · rcases hx : (copy_file env (sp ++ [n]) (rp ++ [n]) (Node.file c m)
                (remove_directory env (rp ++ [n]) (Node.dir rcs)).1).1 with _ | x
            · obtain ⟨res, ev, hcp⟩ := ih rest hszrest sp rp (eraseA rpl n)
              rw [copy_to_replica.eq_def]
              simp only [hl, hx, updOpt]
              rw [hcp]
              exact ⟨res, _, rfl⟩
            · obtain ⟨res, ev, hcp⟩ := ih rest hszrest sp rp (updateA rpl n x)
              rw [copy_to_replica.eq_def]
              simp only [hl, hx, updOpt]
              rw [hcp]
              exact ⟨res, _, rfl⟩
          · obtain ⟨res1, ev1, hsub⟩ := ih scs (by
              have := sizeOf_entry_dir n scs rest
              omega) (sp ++ [n]) (rp ++ [n]) rcs
            obtain ⟨res, ev, hcp⟩ :=
              ih rest hszrest sp rp (updateA rpl n (Node.dir res1))
            rw [copy_to_replica.eq_def]
            simp only [hl, hsub, bindExc_ok]
            rw [hcp]
            exact ⟨res, _, rfl⟩

/-- The one failing copy path is the only path of its directory level: a
sibling name, or anything strictly below a sibling name, never fails. -/
theorem envOneBadCopy_copyFails_deep {sp : Path} {bad n : String} {q : Path}
    (h : n ≠ bad ∨ q ≠ []) :
    (envOneBadCopy (sp ++ [bad])).copyFails (sp ++ [n] ++ q) = false := by
  simp only [envOneBadCopy]
  rw [beq_eq_false_iff_ne]
  intro hc
  rw [List.append_assoc] at hc
  have h2 : [n] ++ q = [bad] := List.append_cancel_left hc
  simp only [List.singleton_append, List.cons.injEq] at h2
  rcases h with h | h
  · exact h h2.1
  · exact h h2.2

/-- The Reconciler when exactly one source regular file's copy fails and
every other operation succeeds: the pass completes, every sibling entry is
copied or updated correctly (recursively for directory siblings), names
absent from the source keep their replica objects, the result stays
well-formed, and exactly one failure is logged, naming the failing path.
The failing copy is actually attempted: the replica side of the failing
name is absent, a directory, or a file with different content. -/
theorem copy_one_bad (sp rp : Path) (bad : String) (cb : List Nat) (mb : Nat) :
    ∀ (src rpl : Listing),
    wfL src = true → wfL rpl = true →
    lookupA src bad = some (.file cb mb) →
    (lookupA rpl bad = none ∨ (∃ d, lookupA rpl bad = some (.dir d)) ∨
      (∃ c' m', lookupA rpl bad = some (.file c' m') ∧ cb ≠ c')) →
    ∃ res ev,
      copy_to_replica (envOneBadCopy (sp ++ [bad])) sp rp src rpl = .ok (res, ev) ∧
      covered (eraseA src bad) res = true ∧ wfL res = true ∧
      (∀ k, hasName src k = false → lookupA res k = lookupA rpl k) ∧
      ev.filter Event.isFailure = [.copyFileFailed (rp ++ [bad])] := by
  intro src
  induction src with
  | nil =>
    intro rpl _ _ hbad _
    simp at hbad
  | cons hd rest ih =>
    intro rpl hs hr hbad hatt
    obtain ⟨n, sn⟩ := hd
    simp only [wfL_cons, Bool.and_eq_true, Bool.not_eq_true'] at hs
    have hnrest : hasName rest n = false := hs.1.1
    by_cases hnb : n = bad
    · subst hnb
      rw [lookupA_cons] at hbad
      simp at hbad
      subst hbad
      have henvrest : ∀ rpl1 : Listing,
          copy_to_replica (envOneBadCopy (sp ++ [n])) sp rp rest rpl1 =
            copy_to_replica Env.ok sp rp rest rpl1 := by
        intro rpl1
        refine copy_env_ok (envOneBadCopy (sp ++ [n])) (fun p => rfl) (fun p => rfl)
          (sizeOf rest) rest le_rfl sp rp rpl1 ?_
        intro k q hk
        refine envOneBadCopy_copyFails_deep (Or.inl ?_)
        intro hkn
        subst hkn
        rw [hnrest] at hk
        exact Bool.false_ne_true hk
      have herase : eraseA ((n, Node.file cb mb) :: rest) n = rest := by
        simp [eraseA]
      rcases hatt with hA | ⟨d, hB⟩ | ⟨c', m', hC, hne⟩
      · -- replica side absent: the copy fails, nothing is written
        obtain ⟨res, ev, hcp, hcov, hwres, hpres, hnof⟩ :=
          copy_ok sp rp rest rpl hs.2 hr
        have hrest : copy_to_replica (envOneBadCopy (sp ++ [n])) sp rp rest rpl =
            Except.ok (res, ev) := by
          rw [henvrest rpl]
          exact hcp
        refine ⟨res, Event.copyFileFailed (rp ++ [n]) :: ev, ?_, ?_, hwres, ?_, ?_⟩
        · rw [copy_to_replica.eq_def]
          simp [hA, copy_file_none, envOneBadCopy_copyFails_self, hrest]
        · rw [herase]
          exact hcov
        · intro k hk
          rw [hasName_cons'] at hk
          simp only [Bool.or_eq_false_iff, beq_eq_false_iff_ne] at hk
          exact hpres k hk.2
        · simp [List.filter_cons, Event.isFailure, hnof]
      · -- replica side is a directory: it is removed, then the copy fails
        obtain ⟨res, ev, hcp, hcov, hwres, hpres, hnof⟩ :=
          copy_ok sp rp rest (eraseA rpl n) hs.2 (wfL_eraseA hr)
        have hrest : copy_to_replica (envOneBadCopy (sp ++ [n])) sp rp rest
            (eraseA rpl n) = Except.ok (res, ev) := by
          rw [henvrest (eraseA rpl n)]
          exact hcp
        refine ⟨res,
          Event.removedDir (rp ++ [n]) :: Event.copyFileFailed (rp ++ [n]) :: ev,
          ?_, ?_, hwres, ?_, ?_⟩
        · rw [copy_to_replica.eq_def]
          simp [hB, remove_directory_dir, copy_file_none,
            envOneBadCopy_copyFails_self, updOpt, hrest]
        · rw [herase]
          exact hcov
        · intro k hk
          rw [hasName_cons'] at hk
          simp only [Bool.or_eq_false_iff, beq_eq_false_iff_ne] at hk
          rw [hpres k hk.2, lookupA_eraseA_ne hk.1]
        · simp [List.filter_cons, Event.isFailure, hnof]
      · -- replica side is a file with different content: the overwrite is
        -- attempted and fails, the old object stays
        have hbeq : (cb == c') = false := beq_eq_false_iff_ne.2 hne
        have hupd : updateA rpl n (Node.file c' m') = rpl := updateA_self hC
        obtain ⟨res, ev, hcp, hcov, hwres, hpres, hnof⟩ :=
          copy_ok sp rp rest rpl hs.2 hr
        have hrest : copy_to_replica (envOneBadCopy (sp ++ [n])) sp rp rest rpl =
            Except.ok (res, ev) := by
          rw [henvrest rpl]
          exact hcp
        refine ⟨res, Event.copyFileFailed (rp ++ [n]) :: ev, ?_, ?_, hwres, ?_, ?_⟩
        · rw [copy_to_replica.eq_def]
          simp only [hC]
          rw [is_same_file_env_eval (envOneBadCopy (sp ++ [n])) (sp ++ [n])
            (rp ++ [n]) cb mb c' m' rfl rfl]
          simp [hbeq, copy_file_over_file, envOneBadCopy_copyFails_self, updOpt,
            hupd, hrest]
        · rw [herase]
          exact hcov
        · intro k hk
          rw [hasName_cons'] at hk
          simp only [Bool.or_eq_false_iff, beq_eq_false_iff_ne] at hk
          exact hpres k hk.2
        · simp [List.filter_cons, Event.isFailure, hnof]
    · -- the failing entry lies in the remaining entries
      have hnbeq : (n == bad) = false := beq_eq_false_iff_ne.2 hnb
      simp only [lookupA_cons, hnbeq, Bool.false_eq_true, if_false] at hbad
      have hcfn : (envOneBadCopy (sp ++ [bad])).copyFails (sp ++ [n]) = false :=
        envOneBadCopy_copyFails_ne hnb
      have herase : ∀ x : Node,
          eraseA ((n, x) :: rest) bad = (n, x) :: eraseA rest bad := by
        intro x
        simp [eraseA, hnb]
      rcases hl : lookupA rpl n with _ | rn
      · rcases sn with ⟨c, m⟩ | scs
        · -- new file sibling: copied
          have hwrpl1 : wfL (rpl ++ [(n, Node.file c m)]) = true :=
            wfL_append_singleton hr (hasName_eq_false.2 hl) (by simp)
          have hatt1 : lookupA (rpl ++ [(n, Node.file c m)]) bad = lookupA rpl bad :=
            lookupA_append_singleton_ne _ hnb
          have hattr := hatt
          rw [← hatt1] at hattr
          obtain ⟨res, ev, hcp, hcov, hwres, hpres, hfail⟩ :=
            ih (rpl ++ [(n, Node.file c m)]) hs.2 hwrpl1 hbad hattr
          refine ⟨res, Event.copiedFile (rp ++ [n]) :: ev, ?_, ?_, hwres, ?_, ?_⟩
          · rw [copy_to_replica.eq_def]
            simp [hl, copy_file_none, hcfn, hcp]
          · rw [herase, covered_cons]
            have hres_n : lookupA res n = some (Node.file c m) := by
              rw [hpres n hnrest]
              exact lookupA_append_singleton_self _ hl
            rw [hres_n]
            simp [hcov]
          · intro k hk
            rw [hasName_cons'] at hk
            simp only [Bool.or_eq_false_iff, beq_eq_false_iff_ne] at hk
            rw [hpres k hk.2, lookupA_append_singleton_ne _ hk.1]
          · simp [List.filter_cons, Event.isFailure, hfail]
        · -- new directory sibling: cloned exactly
          have hwfscs : wfL scs = true := by simpa using hs.1.2
          have hclone : copytreeList (envOneBadCopy (sp ++ [bad])) (sp ++ [n]) scs =
              (scs, false) := by
            apply copytree_env_ok
            intro q hq
            exact envOneBadCopy_copyFails_deep (Or.inl hnb)
          have hwrpl1 : wfL (rpl ++ [(n, Node.dir scs)]) = true :=
            wfL_append_singleton hr (hasName_eq_false.2 hl) (by simpa using hwfscs)
          have hatt1 : lookupA (rpl ++ [(n, Node.dir scs)]) bad = lookupA rpl bad :=
            lookupA_append_singleton_ne _ hnb
          have hattr := hatt
          rw [← hatt1] at hattr
          obtain ⟨res, ev, hcp, hcov, hwres, hpres, hfail⟩ :=
            ih (rpl ++ [(n, Node.dir scs)]) hs.2 hwrpl1 hbad hattr
          refine ⟨res, Event.copiedDir (rp ++ [n]) :: ev, ?_, ?_, hwres, ?_, ?_⟩
          · rw [copy_to_replica.eq_def]
            simp [hl, copy_directory_none, hclone, hcp]
          · rw [herase, covered_cons]
            have hres_n : lookupA res n = some (Node.dir scs) := by
              rw [hpres n hnrest]
              exact lookupA_append_singleton_self _ hl
            rw [hres_n]
            simp [hcov, covered_refl (sizeOf scs) scs le_rfl hwfscs]
          · intro k hk
            rw [hasName_cons'] at hk
            simp only [Bool.or_eq_false_iff, beq_eq_false_iff_ne] at hk
            rw [hpres k hk.2, lookupA_append_singleton_ne _ hk.1]
          · simp [List.filter_cons, Event.isFailure, hfail]
      · rcases rn with ⟨c', m'⟩ | rcs
        · rcases sn with ⟨c, m⟩ | scs
          · -- file sibling over a replica file: updated if different
            rcases hbeq : (c == c') with _ | _
            · have hwupd : wfL (updateA rpl n (Node.file c m)) = true :=
                wfL_updateA hr (by simp)
              have hatt1 : lookupA (updateA rpl n (Node.file c m)) bad =
                  lookupA rpl bad := lookupA_updateA_ne _ hnb
              have hattr := hatt
              rw [← hatt1] at hattr
              obtain ⟨res, ev, hcp, hcov, hwres, hpres, hfail⟩ :=
                ih (updateA rpl n (Node.file c m)) hs.2 hwupd hbad hattr
              refine ⟨res, Event.copiedFile (rp ++ [n]) :: ev, ?_, ?_, hwres, ?_, ?_⟩
              · rw [copy_to_replica.eq_def]
                simp only [hl]
                rw [is_same_file_env_eval (envOneBadCopy (sp ++ [bad])) (sp ++ [n])
                  (rp ++ [n]) c m c' m' rfl rfl]
                simp [hbeq, copy_file_over_file, hcfn, updOpt, hcp]
              · rw [herase, covered_cons]
                have hres_n : lookupA res n = some (Node.file c m) := by
                  rw [hpres n hnrest, lookupA_updateA_self, hl]
                rw [hres_n]
                simp [hcov]
              · intro k hk
                rw [hasName_cons'] at hk
                simp only [Bool.or_eq_false_iff, beq_eq_false_iff_ne] at hk
                rw [hpres k hk.2, lookupA_updateA_ne _ hk.1]
              · simp [List.filter_cons, Event.isFailure, hfail]
            · -- same content: untouched
              obtain ⟨res, ev, hcp, hcov, hwres, hpres, hfail⟩ :=
                ih rpl hs.2 hr hbad hatt
              refine ⟨res, ev, ?_, ?_, hwres, ?_, hfail⟩
              · rw [copy_to_replica.eq_def]
                simp only [hl]
                rw [is_same_file_env_eval (envOneBadCopy (sp ++ [bad])) (sp ++ [n])
                  (rp ++ [n]) c m c' m' rfl rfl]
                simp [hbeq, hcp]
              · rw [herase, covered_cons]
                have hres_n : lookupA res n = some (Node.file c' m') := by
                  rw [hpres n hnrest, hl]
                rw [hres_n]
                simp [hcov, hbeq]
              · intro k hk
                rw [hasName_cons'] at hk
                simp only [Bool.or_eq_false_iff, beq_eq_false_iff_ne] at hk
                exact hpres k hk.2
          · -- directory sibling over a replica file: file removed, dir cloned
            have hwfscs : wfL scs = true := by simpa using hs.1.2
            have hclone : copytreeList (envOneBadCopy (sp ++ [bad])) (sp ++ [n]) scs =
                (scs, false) := by
              apply copytree_env_ok
              intro q hq
              exact envOneBadCopy_copyFails_deep (Or.inl hnb)
            have hwupd : wfL (updateA rpl n (Node.dir scs)) = true :=
              wfL_updateA hr (by simpa using hwfscs)
            have hatt1 : lookupA (updateA rpl n (Node.dir scs)) bad =
                lookupA rpl bad := lookupA_updateA_ne _ hnb
            have hattr := hatt
            rw [← hatt1] at hattr
            obtain ⟨res, ev, hcp, hcov, hwres, hpres, hfail⟩ :=
              ih (updateA rpl n (Node.dir scs)) hs.2 hwupd hbad hattr
            refine ⟨res,
              Event.removedFile (rp ++ [n]) :: Event.copiedDir (rp ++ [n]) :: ev,
              ?_, ?_, hwres, ?_, ?_⟩
            · rw [copy_to_replica.eq_def]
              simp [hl, remove_file_file, copy_directory_none, hclone, updOpt, hcp]
            · rw [herase, covered_cons]
              have hres_n : lookupA res n = some (Node.dir scs) := by
                rw [hpres n hnrest, lookupA_updateA_self, hl]
              rw [hres_n]
              simp [hcov, covered_refl (sizeOf scs) scs le_rfl hwfscs]
            · intro k hk
              rw [hasName_cons'] at hk
              simp only [Bool.or_eq_false_iff, beq_eq_false_iff_ne] at hk
              rw [hpres k hk.2, lookupA_updateA_ne _ hk.1]
            · simp [List.filter_cons, Event.isFailure, hfail]
        · rcases sn with ⟨c, m⟩ | scs
          · -- file sibling over a replica directory: dir removed, file copied
            have hwupd : wfL (updateA rpl n (Node.file c m)) = true :=
              wfL_updateA hr (by simp)
            have hatt1 : lookupA (updateA rpl n (Node.file c m)) bad =
                lookupA rpl bad := lookupA_updateA_ne _ hnb
            have hattr := hatt
            rw [← hatt1] at hattr
            obtain ⟨res, ev, hcp, hcov, hwres, hpres, hfail⟩ :=
              ih (updateA rpl n (Node.file c m)) hs.2 hwupd hbad hattr
            refine ⟨res,
              Event.removedDir (rp ++ [n]) :: Event.copiedFile (rp ++ [n]) :: ev,
              ?_, ?_, hwres, ?_, ?_⟩
            · rw [copy_to_replica.eq_def]
              simp [hl, remove_directory_dir, copy_file_none, hcfn, updOpt, hcp]
            · rw [herase, covered_cons]
              have hres_n : lookupA res n = some (Node.file c m) := by
                rw [hpres n hnrest, lookupA_updateA_self, hl]
              rw [hres_n]
              simp [hcov]
            · intro k hk
              rw [hasName_cons'] at hk
              simp only [Bool.or_eq_false_iff, beq_eq_false_iff_ne] at hk
              rw [hpres k hk.2, lookupA_updateA_ne _ hk.1]
            · simp [List.filter_cons, Event.isFailure, hfail]
          · -- directory sibling over a replica directory: reconciled with no
            -- failure below it
            have hwfscs : wfL scs = true := by simpa using hs.1.2
            have hwfrcs : wfL rcs = true := by simpa using wfN_of_lookupA hr hl
            have hsubeq : copy_to_replica (envOneBadCopy (sp ++ [bad])) (sp ++ [n])
                (rp ++ [n]) scs rcs =
                copy_to_replica Env.ok (sp ++ [n]) (rp ++ [n]) scs rcs := by
              refine copy_env_ok (envOneBadCopy (sp ++ [bad])) (fun p => rfl)
                (fun p => rfl) (sizeOf scs) scs le_rfl (sp ++ [n]) (rp ++ [n]) rcs ?_
              intro k q hk
              have h1 := @envOneBadCopy_copyFails_deep sp bad n ([k] ++ q)
                (Or.inl hnb)
              simpa [List.append_assoc] using h1
            obtain ⟨res1, ev1, hcpsub, hcovsub, hwsub, _, hnofsub⟩ :=
              copy_ok (sp ++ [n]) (rp ++ [n]) scs rcs hwfscs hwfrcs
            have hsub : copy_to_replica (envOneBadCopy (sp ++ [bad])) (sp ++ [n])
                (rp ++ [n]) scs rcs = Except.ok (res1, ev1) := by
              rw [hsubeq]
              exact hcpsub
            have hwupd : wfL (updateA rpl n (Node.dir res1)) = true :=
              wfL_updateA hr (by simpa using hwsub)
            have hatt1 : lookupA (updateA rpl n (Node.dir res1)) bad =
                lookupA rpl bad := lookupA_updateA_ne _ hnb
            have hattr := hatt
            rw [← hatt1] at hattr
            obtain ⟨res, ev, hcp, hcov, hwres, hpres, hfail⟩ :=
              ih (updateA rpl n (Node.dir res1)) hs.2 hwupd hbad hattr
            refine ⟨res, ev1 ++ ev, ?_, ?_, hwres, ?_, ?_⟩
            · rw [copy_to_replica.eq_def]
              simp [hl, hsub, hcp]
            · rw [herase, covered_cons]
              have hres_n : lookupA res n = some (Node.dir res1) := by
                rw [hpres n hnrest, lookupA_updateA_self, hl]
              rw [hres_n]
              simp [hcov, hcovsub]
            · intro k hk
              rw [hasName_cons'] at hk
              simp only [Bool.or_eq_false_iff, beq_eq_false_iff_ne] at hk
              rw [hpres k hk.2, lookupA_updateA_ne _ hk.1]
            · simp [List.filter_append, hnofsub, hfail]

/-- C5: in a well-formed source directory where exactly one entry's copy
fails (a permission error on that one regular file) and every other
operation succeeds, one reconciliation pass still completes: every sibling
entry — new files, updated files, and directory siblings, recursively — is
copied or updated correctly in the replica, names absent from the source
keep their replica objects, and exactly one failure is logged, naming the
failing entry.  Moreover a per-entry copy or removal failure never aborts
the traversal: with no comparison raising, the pass returns a result
whatever copy and removal failures the environment injects. -/
theorem c5_one_bad_copy_isolated (sp rp : Path) (src rpl : Listing) (bad : String)
    (cb : List Nat) (mb : Nat)
    (hs : wfL src = true) (hr : wfL rpl = true)
    (hbad : lookupA src bad = some (.file cb mb))
    (hatt : lookupA rpl bad = none ∨ (∃ d, lookupA rpl bad = some (.dir d)) ∨
      (∃ c' m', lookupA rpl bad = some (.file c' m') ∧ cb ≠ c')) :
    (∃ res ev,
      copy_to_replica (envOneBadCopy (sp ++ [bad])) sp rp src rpl = .ok (res, ev) ∧
      covered (eraseA src bad) res = true ∧
      (∀ k, hasName src k = false → lookupA res k = lookupA rpl k) ∧
      ev.filter Event.isFailure = [.copyFileFailed (rp ++ [bad])]) ∧
    (∀ env : Env, (∀ p, env.cmpRaises p = false) →
      ∃ res ev, copy_to_replica env sp rp src rpl = .ok (res, ev)) := by
  constructor
  · obtain ⟨res, ev, h1, h2, h3, h4, h5⟩ :=
      copy_one_bad sp rp bad cb mb src rpl hs hr hbad hatt
    exact ⟨res, ev, h1, h2, h4, h5⟩
  · intro env hcmp
    exact copy_total env hcmp (sizeOf src) src le_rfl sp rp rpl

theorem c5_one_bad_copy_isolated_witness :
    (∃ res ev,
      copy_to_replica (envOneBadCopy (["s"] ++ ["bad"])) ["s"] ["r"]
        [("a", .file [1] 0), ("bad", .file [2, 2] 0),
          ("d", .dir [("x", .file [3] 0)])]
        [("a", .file [9] 5), ("bad", .file [7, 8] 1)] = .ok (res, ev) ∧
      covered (eraseA [("a", Node.file [1] 0), ("bad", Node.file [2, 2] 0),
          ("d", Node.dir [("x", Node.file [3] 0)])] "bad") res = true ∧
      (∀ k, hasName [("a", Node.file [1] 0), ("bad", Node.file [2, 2] 0),
          ("d", Node.dir [("x", Node.file [3] 0)])] k = false →
        lookupA res k =
          lookupA [("a", Node.file [9] 5), ("bad", Node.file [7, 8] 1)] k) ∧
      ev.filter Event.isFailure = [.copyFileFailed (["r"] ++ ["bad"])]) ∧
    (∀ env : Env, (∀ p, env.cmpRaises p = false) →
      ∃ res ev,
        copy_to_replica env ["s"] ["r"]
          [("a", .file [1] 0), ("bad", .file [2, 2] 0),
            ("d", .dir [("x", .file [3] 0)])]
          [("a", .file [9] 5), ("bad", .file [7, 8] 1)] = .ok (res, ev)) :=
  c5_one_bad_copy_isolated ["s"] ["r"]
    [("a", .file [1] 0), ("bad", .file [2, 2] 0), ("d", .dir [("x", .file [3] 0)])]
    [("a", .file [9] 5), ("bad", .file [7, 8] 1)] "bad" [2, 2] 0
    (by simp [wfL, wfN, hasName]) (by simp [wfL, wfN, hasName]) rfl
    (Or.inr (Or.inr ⟨[7, 8], 1, rfl, by decide⟩))

/-- Pointwise characterization of the prune pass under the no-failure
environment: entries with no source path disappear, files with a source
path persist, directories with a source path are pruned recursively; the
result stays well-formed. -/
theorem remove_char (sp rp : Path) (s : Node) (rpl : Listing) :
    wfL rpl = true →
    wfL (remove_from_replica Env.ok sp rp s rpl).1 = true ∧
    ∀ m, lookupA (remove_from_replica Env.ok sp rp s rpl).1 m =
      (match childOf s m, lookupA rpl m with
       | _, none => none
       | none, some _ => none
       | some _, some (.file c mm) => some (.file c mm)
       | some s2, some (.dir rcs) =>
         some (.dir (remove_from_replica Env.ok (sp ++ [m]) (rp ++ [m]) s2 rcs).1)) := by
  induction sp, rp, s, rpl using remove_from_replica.induct Env.ok with
  | case1 sp rp s =>
    intro _
    constructor
    · rw [remove_from_replica.eq_def]
      simp
    · intro m
      rw [remove_from_replica.eq_def]
      simp
  | case2 sp rp s n rn rest spn rpn ihsub ihrest =>
    intro hwf
    simp only [wfL_cons, Bool.and_eq_true, Bool.not_eq_true'] at hwf
    obtain ⟨ihr1, ihr2⟩ := ihrest hwf.2
    have hrestnone : lookupA rest n = none := hasName_eq_false.1 hwf.1.1
    rw [remove_from_replica.eq_def]
    rcases hcs : childOf s n with _ | s2
    · rcases rn with ⟨c, mm⟩ | rcs
      · simp only [hcs, remove_file_file, envOk_removeFails, Bool.false_eq_true, if_false]
        refine ⟨by simpa using ihr1, ?_⟩
        intro m
        rw [ihr2 m]
        by_cases hm : n = m
        · subst hm
          rw [hcs, hrestnone]
          simp
        · simp [hm]
      · simp only [hcs, remove_directory_dir, envOk_removeFails, Bool.false_eq_true,
          if_false]
        refine ⟨by simpa using ihr1, ?_⟩
        intro m
        rw [ihr2 m]
        by_cases hm : n = m
        · subst hm
          rw [hcs, hrestnone]
          simp
        · simp [hm]
    · rcases rn with ⟨c, mm⟩ | rcs
      · simp only [hcs]
        have hresn : lookupA (remove_from_replica Env.ok sp rp s rest).1 n = none := by
          rw [ihr2 n, hcs, hrestnone]
        constructor
        · rw [wfL_cons]
          simp only [Bool.and_eq_true, Bool.not_eq_true']
          exact ⟨⟨hasName_eq_false.2 hresn, by simp⟩, by simpa using ihr1⟩
        · intro m
          by_cases hm : n = m
          · subst hm
            rw [hcs]
            simp
          · simp only [lookupA_cons, beq_iff_eq, hm, if_false]
            rw [ihr2 m]
      · simp only [hcs] at ihsub
        have hwfrcs : wfL rcs = true := by simpa using hwf.1.2
        obtain ⟨ihs1, _⟩ := ihsub hwfrcs
        have ihs1b : wfL (remove_from_replica Env.ok (sp ++ [n]) (rp ++ [n]) s2 rcs).1 =
            true := ihs1
        simp only [hcs]
        have hresn : lookupA (remove_from_replica Env.ok sp rp s rest).1 n = none := by
          rw [ihr2 n, hcs, hrestnone]
        constructor
        · rw [wfL_cons]
          simp only [Bool.and_eq_true, Bool.not_eq_true']
          exact ⟨⟨hasName_eq_false.2 hresn, by simpa using ihs1b⟩, by simpa using ihr1⟩
        · intro m
          by_cases hm : n = m
          · subst hm
            rw [hcs]
            simp
          · simp only [lookupA_cons, beq_iff_eq, hm, if_false]
            rw [ihr2 m]

/-- After the prune pass, every surviving replica entry has a same-named
source path, recursively. -/
theorem subNames_after_remove (sp rp : Path) (s : Node) (rpl : Listing) :
    subNames s (remove_from_replica Env.ok sp rp s rpl).1 = true := by
  induction sp, rp, s, rpl using remove_from_replica.induct Env.ok with
  | case1 sp rp s =>
    rw [remove_from_replica.eq_def]
    simp
  | case2 sp rp s n rn rest spn rpn ihsub ihrest =>
    rw [remove_from_replica.eq_def]
    rcases hcs : childOf s n with _ | s2
    · rcases rn with ⟨c, mm⟩ | rcs
      · simpa [hcs, remove_file_file] using ihrest
      · simpa [hcs, remove_directory_dir] using ihrest
    · rcases rn with ⟨c, mm⟩ | rcs
      · simp only [hcs]
        rw [subNames_cons_file s n c mm _ ⟨s2, hcs⟩]
        exact ihrest
      · simp only [hcs] at ihsub
        have ihsub2 : subNames s2
            (remove_from_replica Env.ok (sp ++ [n]) (rp ++ [n]) s2 rcs).1 = true := ihsub
        simp only [hcs]
        rw [subNames_cons_dir s n s2 _ _ hcs, ihsub2]
        simpa using ihrest

/-- The prune pass preserves coverage of the source. -/
theorem covered_remove : ∀ (N : Nat) (src r1 : Listing) (sp rp : Path),
    sizeOf src ≤ N → wfL src = true → wfL r1 = true → covered src r1 = true →
    covered src (remove_from_replica Env.ok sp rp (.dir src) r1).1 = true := by
  intro N
  induction N with
  | zero =>
    intro src r1 sp rp hsz
    have := sizeOf_listing_pos src
    omega
  | succ N ih =>
    intro src r1 sp rp hsz hws hwr hcov
    obtain ⟨hwres, hchar⟩ := remove_char sp rp (.dir src) r1 hwr
    suffices h : ∀ t : Listing, (∀ p ∈ t, p ∈ src) → covered t r1 = true →
        covered t (remove_from_replica Env.ok sp rp (.dir src) r1).1 = true by
      exact h src (fun p hp => hp) hcov
    intro t
    induction t with
    | nil =>
      intro _ _
      simp
    | cons hd t2 iht =>
      intro hmem hcovt
      obtain ⟨n, sn⟩ := hd
      rw [covered_cons] at hcovt ⊢
      simp only [Bool.and_eq_true] at hcovt
      have htail := iht (fun p hp => hmem p (List.mem_cons_of_mem _ hp)) hcovt.2
      rw [htail]
      rcases hl : lookupA r1 n with _ | rn
      · rw [hl] at hcovt
        rcases sn with ⟨c, mm⟩ | scs <;> simp at hcovt
      · rw [hl] at hcovt
        have hmemhd : (n, sn) ∈ src := hmem (n, sn) (List.mem_cons_self _ _)
        have hsrcn : lookupA src n = some sn := lookupA_of_mem_wf hws hmemhd
        have hchn : childOf (Node.dir src) n = some sn := by simpa using hsrcn
        rcases sn with ⟨c, mm⟩ | scs
        · rcases rn with ⟨c2, m2⟩ | rcs
          · have hres : lookupA (remove_from_replica Env.ok sp rp (.dir src) r1).1 n =
                some (Node.file c2 m2) := by
              rw [hchar n, hchn, hl]
            rw [hres]
            simpa using hcovt.1
          · exact absurd hcovt.1 (by simp)
        · rcases rn with ⟨c2, m2⟩ | rcs
          · exact absurd hcovt.1 (by simp)
          · have hres : lookupA (remove_from_replica Env.ok sp rp (.dir src) r1).1 n =
                some (.dir (remove_from_replica Env.ok (sp ++ [n]) (rp ++ [n])
                  (.dir scs) rcs).1) := by
              rw [hchar n, hchn, hl]
            rw [hres]
            have hwscs : wfL scs = true := by simpa using wfN_of_lookupA hws hsrcn
            have hwrcs : wfL rcs = true := by simpa using wfN_of_lookupA hwr hl
            have hsz2 : sizeOf scs ≤ N := by
              have h1 := List.sizeOf_lt_of_mem hmemhd
              have h2 : sizeOf scs < sizeOf (n, Node.dir scs) := by simp_arith
              omega
            have hsub : covered scs (remove_from_replica Env.ok (sp ++ [n]) (rp ++ [n])
                (.dir scs) rcs).1 = true :=
              ih scs rcs (sp ++ [n]) (rp ++ [n]) hsz2 hwscs hwrcs (by simpa using hcovt.1)
            simp [hsub]

/-- Coverage plus sub-naming gives per-path agreement: every path resolves
in the source iff it resolves in the final replica, to the same kind, with
equal content for regular files. -/
theorem lookup_path_agree : ∀ (p : Path) (src res : Listing),
    wfL src = true → wfL res = true →
    covered src res = true → subNames (Node.dir src) res = true →
    agreeAt (lookupPath (Node.dir src) p) (lookupPath (Node.dir res) p) := by
  intro p
  induction p with
  | nil =>
    intro src res _ _ _ _
    simp [lookupPath, agreeAt]
  | cons n q ihq =>
    intro src res hws hwr hcov hsub
    rcases hsn : lookupA src n with _ | sn
    · have hres : lookupA res n = none := by
        rcases hres : lookupA res n with _ | rn
        · rfl
        · obtain ⟨s2, hs2, _⟩ :=
            subNames_mem res (Node.dir src) n rn hsub (mem_of_lookupA hres)
          rw [childOf_dir, hsn] at hs2
          exact Option.noConfusion hs2
      simp [lookupPath, hsn, hres, agreeAt]
    · obtain ⟨rn, hrn, hmatch⟩ := covered_mem src res n sn hcov (mem_of_lookupA hsn)
      rcases sn with ⟨c, mm⟩ | scs
      · rcases rn with ⟨c2, m2⟩ | rcs
        · simp only [] at hmatch
          rcases q with _ | ⟨k, q2⟩
          · simp [lookupPath, hsn, hrn, agreeAt, hmatch]
          · simp [lookupPath, hsn, hrn, agreeAt]
        · exact hmatch.elim
      · rcases rn with ⟨c2, m2⟩ | rcs
        · exact hmatch.elim
        · simp only [] at hmatch
          have hsub2 : subNames (Node.dir scs) rcs = true := by
            obtain ⟨s2, hs2, hrec⟩ :=
              subNames_mem res (Node.dir src) n (.dir rcs) hsub (mem_of_lookupA hrn)
            rw [childOf_dir, hsn] at hs2
            injection hs2 with hs2
            rw [← hs2] at hrec
            simpa using hrec
          have hws2 : wfL scs = true := by simpa using wfN_of_lookupA hws hsn
          have hwr2 : wfL rcs = true := by simpa using wfN_of_lookupA hwr hrn
          have hag := ihq scs rcs hws2 hwr2 hmatch hsub2
          simp only [lookupPath, hsn, hrn]
          exact hag

/-- One cycle of `synch_folders` under the no-failure environment
completes, and its result covers the source, has no extra names at any
level, and is well-formed. -/
theorem synch_ok (sp rp : Path) (src rpl : Listing)
    (hs : wfL src = true) (hr : wfL rpl = true) :
    ∃ res ev, synch_folders Env.ok sp rp src rpl = .ok (res, ev) ∧
      covered src res = true ∧ subNames (Node.dir src) res = true ∧ wfL res = true := by
  rcases src with _ | ⟨shd, st⟩
  · rcases rpl with _ | ⟨rhd, rt⟩
    · exact ⟨[], [], by rw [synch_folders]; simp [is_folder_empty], by simp, by simp,
        by simp⟩
    · obtain ⟨ev, hrm⟩ := remove_all_no_src sp rp (.dir []) (fun k => rfl) (rhd :: rt)
      exact ⟨[], ev, by rw [synch_folders]; simp [is_folder_empty, hrm], by simp, by simp,
        by simp⟩
  · rcases rpl with _ | ⟨rhd, rt⟩
    · obtain ⟨ev, hcp⟩ := copy_clone sp rp (shd :: st) [] hs (fun k _ => rfl)
      refine ⟨shd :: st, ev, ?_, ?_, ?_, hs⟩
      · rw [synch_folders]
        simp only [is_folder_empty, List.isEmpty_cons, List.isEmpty_nil, Bool.false_and,
          Bool.not_false, Bool.and_true, Bool.false_eq_true, if_false, if_true]
        simpa using hcp
      · exact covered_refl (sizeOf (shd :: st)) (shd :: st) le_rfl hs
      · exact subNames_refl (shd :: st) hs
    · obtain ⟨r1, ev1, hcp, hcov1, hwr1, _, _⟩ := copy_ok sp rp (shd :: st) (rhd :: rt) hs hr
      obtain ⟨hwres, _⟩ := remove_char sp rp (.dir (shd :: st)) r1 hwr1
      refine ⟨(remove_from_replica Env.ok sp rp (.dir (shd :: st)) r1).1,
        ev1 ++ (remove_from_replica Env.ok sp rp (.dir (shd :: st)) r1).2, ?_, ?_, ?_,
        hwres⟩
      · rw [synch_folders]
        simp only [is_folder_empty, List.isEmpty_cons, List.isEmpty_nil, Bool.false_and,
          Bool.not_false, Bool.and_true, Bool.false_eq_true, if_false, if_true]
        rw [hcp]
        simp
      · exact covered_remove (sizeOf (shd :: st)) (shd :: st) r1 sp rp le_rfl hs hwr1 hcov1
      · exact subNames_after_remove sp rp (.dir (shd :: st)) r1

/-- C1: for every finite well-formed source and replica tree, one cycle of
the driver under the no-failure environment completes, and afterwards every
path present in the source has an entry of the same kind with equal content
at the corresponding replica path, while every path present only in the
replica no longer exists (`agreeAt` forces absence in the result wherever
the source has no entry). -/
theorem c1_convergence (sp rp : Path) (src rpl : Listing)
    (hs : wfL src = true) (hr : wfL rpl = true) :
    ∃ res ev, synch_folders Env.ok sp rp src rpl = .ok (res, ev) ∧
      ∀ p, agreeAt (lookupPath (.dir src) p) (lookupPath (.dir res) p) := by
  obtain ⟨res, ev, hsy, hcov, hsub, hwres⟩ := synch_ok sp rp src rpl hs hr
  exact ⟨res, ev, hsy, fun p => lookup_path_agree p src res hs hwres hcov hsub⟩

theorem c1_convergence_witness :
    ∃ res ev,
      synch_folders Env.ok ["s"] ["r"]
        [("a", .file [1] 0), ("sub", .dir [("b", .file [2] 0)])]
        [("a", .file [9] 5), ("old", .file [7] 0)] = .ok (res, ev) ∧
      ∀ p, agreeAt
        (lookupPath (.dir [("a", .file [1] 0), ("sub", .dir [("b", .file [2] 0)])]) p)
        (lookupPath (.dir res) p) :=
  c1_convergence ["s"] ["r"]
    [("a", .file [1] 0), ("sub", .dir [("b", .file [2] 0)])]
    [("a", .file [9] 5), ("old", .file [7] 0)]
    (by simp [wfL, wfN, hasName]) (by simp [wfL, wfN, hasName])

/-- The Reconciler performs no operation on a replica that already covers
the source (all entries already equal). -/
theorem copy_noop (sp rp : Path) (src rpl : Listing) :
    wfL src = true → wfL rpl = true → covered src rpl = true →
    copy_to_replica Env.ok sp rp src rpl = .ok (rpl, []) := by
  induction sp, rp, src, rpl using copy_to_replica.induct Env.ok with
  | case1 sp rp rpl =>
    intro _ _ _
    rw [copy_to_replica.eq_def]
  | case2 sp rp rpl n rest spn rpn c m hl r rpl1 ih =>
    intro _ _ hcov
    rw [covered_cons, hl] at hcov
    simp at hcov
  | case3 sp rp rpl n rest spn rpn scs hl r rpl1 ih =>
    intro _ _ hcov
    rw [covered_cons, hl] at hcov
    simp at hcov
  | case4 sp rp rpl n rest spn rpn c' m' c m hl ih1 ih2 =>
    intro hs hr hcov
    rw [covered_cons, hl] at hcov
    simp only [Bool.and_eq_true] at hcov
    have hbeq : (c == c') = true := by simpa using hcov.1
    simp only [wfL_cons, Bool.and_eq_true, Bool.not_eq_true'] at hs
    rw [copy_to_replica.eq_def]
    simp only [hl, is_same_file_ok_eval, hbeq, bindExc_ok, if_true]
    exact ih1 hs.2 hr hcov.2
  | case5 sp rp rpl n rest spn rpn rcs c m hl r1 r2 ih =>
    intro _ _ hcov
    rw [covered_cons, hl] at hcov
    simp at hcov
  | case6 sp rp rpl n rest spn rpn rcs scs hl ih1 ih2 =>
    intro hs hr hcov
    rw [covered_cons, hl] at hcov
    simp only [Bool.and_eq_true] at hcov
    have hcovsub : covered scs rcs = true := by simpa using hcov.1
    simp only [wfL_cons, Bool.and_eq_true, Bool.not_eq_true'] at hs
    have hws : wfL scs = true := by simpa using hs.1.2
    have hwr : wfL rcs = true := by simpa using wfN_of_lookupA hr hl
    have hsubeq : copy_to_replica Env.ok (sp ++ [n]) (rp ++ [n]) scs rcs =
        .ok (rcs, []) := ih1 hws hwr hcovsub
    have hupd : updateA rpl n (Node.dir rcs) = rpl := updateA_self hl
    have h2 : copy_to_replica Env.ok sp rp rest (updateA rpl n (Node.dir rcs)) =
        .ok (updateA rpl n (Node.dir rcs), []) :=
      ih2 (rcs, []) hs.2 (by rw [hupd]; exact hr) (by rw [hupd]; exact hcov.2)
    have h2b : copy_to_replica Env.ok sp rp rest rpl = .ok (rpl, []) := by
      rw [hupd] at h2
      exact h2
    rw [copy_to_replica.eq_def]
    simp only [hl, hsubeq, bindExc_ok]
    simp [hupd, h2b]
  | case7 sp rp rpl n rest spn rpn c' m' scs hl r1 r2 ih =>
    intro _ _ hcov
    rw [covered_cons, hl] at hcov
    simp at hcov

/-- One whole cycle performs no operation on a replica that already covers
the source and has no extra names. -/
theorem synch_noop (sp rp : Path) (src res : Listing)
    (hs : wfL src = true) (hw : wfL res = true)
    (hcov : covered src res = true) (hsub : subNames (.dir src) res = true) :
    synch_folders Env.ok sp rp src res = .ok (res, []) := by
  rcases src with _ | ⟨shd, st⟩
  · have hres : res = [] := by
      rcases res with _ | ⟨rhd, rt⟩
      · rfl
      · obtain ⟨rn, rk⟩ := rhd
        rw [subNames_cons_noneF (.dir []) rn rk rt (by simp)] at hsub
        exact absurd hsub (by simp)
    subst hres
    rw [synch_folders]
    simp [is_folder_empty]
  · obtain ⟨n, sn⟩ := shd
    rcases res with _ | ⟨rhd, rt⟩
    · rw [covered_cons] at hcov
      simp at hcov
    · rw [synch_folders]
      simp only [is_folder_empty, List.isEmpty_cons, List.isEmpty_nil, Bool.false_and,
        Bool.not_false, Bool.and_true, Bool.and_false, Bool.false_eq_true, if_false]
      rw [copy_noop sp rp ((n, sn) :: st) (rhd :: rt) hs hw hcov]
      simp only [bindExc_ok]
      rw [remove_from_replica_sub Env.ok sp rp (.dir ((n, sn) :: st)) (rhd :: rt) hsub]
      simp

/-- C3: running the cycle driver a second time immediately after a
completed first run, with the source unchanged and no operation failing,
performs no copy, overwrite or removal operation: the second run returns
the replica unchanged with an empty operation log. -/
theorem c3_second_run_silent (sp rp : Path) (src rpl : Listing)
    (hs : wfL src = true) (hr : wfL rpl = true)
    (res : Listing) (ev : List Event)
    (h : synch_folders Env.ok sp rp src rpl = .ok (res, ev)) :
    synch_folders Env.ok sp rp src res = .ok (res, []) := by
  obtain ⟨res2, ev2, hsy, hcov, hsub, hwres⟩ := synch_ok sp rp src rpl hs hr
  rw [h] at hsy
  injection hsy with hsy
  injection hsy with h1 h2
  subst h1
  exact synch_noop sp rp src res hs hwres hcov hsub

theorem c3_second_run_silent_witness :
    synch_folders Env.ok ["s"] ["r"] [] [] = .ok ([], []) :=
  c3_second_run_silent ["s"] ["r"] [] [("b", .file [2] 0)] rfl
    (by simp [wfL, wfN, hasName]) [] [.removedFile ["r", "b"]]
    (by rw [synch_folders]
        rw [remove_from_replica.eq_def]
        simp [is_folder_empty, remove_file_file]
        rw [remove_from_replica.eq_def]
        simp)

/-- The Reconciler at a file-over-directory conflict: the run completes,
the conflicting path holds the source file's exact content, and the
operation log shows the whole replica directory subtree being removed
immediately before the file copy. -/
theorem copy_conflict (sp rp : Path) (src rpl : Listing) :
    ∀ (n : String) (c : List Nat) (m : Nat) (rcs : Listing),
      wfL src = true → wfL rpl = true →
      lookupA src n = some (.file c m) → lookupA rpl n = some (.dir rcs) →
      ∃ res ev, copy_to_replica Env.ok sp rp src rpl = .ok (res, ev) ∧
        lookupA res n = some (.file c m) ∧
        ∃ pre post,
          ev = pre ++ [.removedDir (rp ++ [n]), .copiedFile (rp ++ [n])] ++ post := by
  induction sp, rp, src, rpl using copy_to_replica.induct Env.ok with
  | case1 sp rp rpl =>
    intro n c m rcs _ _ hsn _
    simp at hsn
  | case2 sp rp rpl k rest spn rpn c0 m0 hl r rpl1 ih =>
    intro n c m rcs hs hr hsn hrn
    simp only [wfL_cons, Bool.and_eq_true, Bool.not_eq_true'] at hs
    by_cases hk : k = n
    · subst hk
      rw [hl] at hrn
      exact Option.noConfusion hrn
    · simp only [lookupA_cons, beq_iff_eq, hk, if_false] at hsn
      have hrpl1 : wfL (rpl ++ [(k, Node.file c0 m0)]) = true :=
        wfL_append_singleton hr (hasName_eq_false.2 hl) (by simp)
      have hrn1 : lookupA (rpl ++ [(k, Node.file c0 m0)]) n = some (.dir rcs) := by
        rw [lookupA_append_singleton_ne _ hk]
        exact hrn
      obtain ⟨res, ev, hcp, hres, pre, post, hev⟩ := ih n c m rcs hs.2 hrpl1 hsn hrn1
      have hcp2 : copy_to_replica Env.ok sp rp rest (rpl ++ [(k, Node.file c0 m0)]) =
          .ok (res, ev) := hcp
      refine ⟨res, Event.copiedFile (rp ++ [k]) :: ev, ?_, hres,
        Event.copiedFile (rp ++ [k]) :: pre, post, ?_⟩
      · rw [copy_to_replica.eq_def]
        simp only [hl, copy_file_none, envOk_copyFails, Bool.false_eq_true, if_false]
        simp [hcp2]
      · rw [hev]
        simp
  | case3 sp rp rpl k rest spn rpn scs hl r rpl1 ih =>
    intro n c m rcs hs hr hsn hrn
    simp only [wfL_cons, Bool.and_eq_true, Bool.not_eq_true'] at hs
    by_cases hk : k = n
    · subst hk
      rw [hl] at hrn
      exact Option.noConfusion hrn
    · simp only [lookupA_cons, beq_iff_eq, hk, if_false] at hsn
      have hwfscs : wfL scs = true := by simpa using hs.1.2
      have hclone : (copytreeList Env.ok (sp ++ [k]) scs).1 = scs := by
        rw [copytree_exact]
      have hrpl1 : wfL (rpl ++ [(k, Node.dir (copytreeList Env.ok (sp ++ [k]) scs).1)]) =
          true := by
        rw [hclone]
        exact wfL_append_singleton hr (hasName_eq_false.2 hl) (by simpa using hwfscs)
      have hrn1 : lookupA (rpl ++ [(k, Node.dir (copytreeList Env.ok (sp ++ [k]) scs).1)])
          n = some (.dir rcs) := by
        rw [lookupA_append_singleton_ne _ hk]
        exact hrn
      obtain ⟨res, ev, hcp, hres, pre, post, hev⟩ := ih n c m rcs hs.2 hrpl1 hsn hrn1
      have hcp2 : copy_to_replica Env.ok sp rp rest
          (rpl ++ [(k, Node.dir (copytreeList Env.ok (sp ++ [k]) scs).1)]) =
          .ok (res, ev) := hcp
      rw [hclone] at hcp2
      refine ⟨res, Event.copiedDir (rp ++ [k]) :: ev, ?_, hres,
        Event.copiedDir (rp ++ [k]) :: pre, post, ?_⟩
      · rw [copy_to_replica.eq_def]
        simp only [hl, copy_directory_none, copytree_exact]
        simp [hcp2]
      · rw [hev]
        simp
  | case4 sp rp rpl k rest spn rpn c' m' c0 m0 hl ih1 ih2 =>
    intro n c m rcs hs hr hsn hrn
    simp only [wfL_cons, Bool.and_eq_true, Bool.not_eq_true'] at hs
    by_cases hk : k = n
    · subst hk
      rw [hl] at hrn
      simp at hrn
    · simp only [lookupA_cons, beq_iff_eq, hk, if_false] at hsn
      rcases hbeq : (c0 == c') with _ | _
      · have hupd : wfL (updateA rpl k (Node.file c0 m0)) = true :=
          wfL_updateA hr (by simp)
        have hrn1 : lookupA (updateA rpl k (Node.file c0 m0)) n = some (.dir rcs) := by
          rw [lookupA_updateA_ne _ hk]
          exact hrn
        obtain ⟨res, ev, hcp, hres, pre, post, hev⟩ := ih2 n c m rcs hs.2 hupd hsn hrn1
        have hcp2 : copy_to_replica Env.ok sp rp rest (updateA rpl k (Node.file c0 m0)) =
            .ok (res, ev) := hcp
        refine ⟨res, Event.copiedFile (rp ++ [k]) :: ev, ?_, hres,
          Event.copiedFile (rp ++ [k]) :: pre, post, ?_⟩
        · rw [copy_to_replica.eq_def]
          simp only [hl, is_same_file_ok_eval, hbeq, bindExc_ok, Bool.false_eq_true,
            if_false, copy_file_over_file, envOk_copyFails]
          simp [hcp2, updOpt]
        · rw [hev]
          simp
      · obtain ⟨res, ev, hcp, hres, pre, post, hev⟩ := ih1 n c m rcs hs.2 hr hsn hrn
        refine ⟨res, ev, ?_, hres, pre, post, hev⟩
        rw [copy_to_replica.eq_def]
        simp only [hl, is_same_file_ok_eval, hbeq, bindExc_ok, if_true]
        exact hcp
  | case5 sp rp rpl k rest spn rpn rcs0 c0 m0 hl r1 r2 ih =>
    intro n c m rcs hs hr hsn hrn
    simp only [wfL_cons, Bool.and_eq_true, Bool.not_eq_true'] at hs
    by_cases hk : k = n
    · -- the conflicting entry itself
      subst hk
      simp only [lookupA_cons, beq_self_eq_true, if_true] at hsn
      injection hsn with hsn
      injection hsn with hc hm
      subst hc
      subst hm
      have hupd : wfL (updateA rpl k (Node.file c0 m0)) = true :=
        wfL_updateA hr (by simp)
      obtain ⟨res, ev, hcp, _, hwres, hpres, _⟩ := copy_ok sp rp rest
        (updateA rpl k (Node.file c0 m0)) hs.2 hupd
      refine ⟨res, Event.removedDir (rp ++ [k]) :: Event.copiedFile (rp ++ [k]) :: ev,
        ?_, ?_, [], ev, by simp⟩
      · rw [copy_to_replica.eq_def]
        simp only [hl, remove_directory_dir, envOk_removeFails, Bool.false_eq_true,
          if_false, copy_file_none, envOk_copyFails]
        simp [hcp, updOpt]
      · rw [hpres k hs.1.1, lookupA_updateA_self, hl]
    · simp only [lookupA_cons, beq_iff_eq, hk, if_false] at hsn
      have hupd : wfL (updateA rpl k (Node.file c0 m0)) = true :=
        wfL_updateA hr (by simp)
      have hrn1 : lookupA (updateA rpl k (Node.file c0 m0)) n = some (.dir rcs) := by
        rw [lookupA_updateA_ne _ hk]
        exact hrn
      obtain ⟨res, ev, hcp, hres, pre, post, hev⟩ := ih n c m rcs hs.2 hupd hsn hrn1
      have hcp2 : copy_to_replica Env.ok sp rp rest (updateA rpl k (Node.file c0 m0)) =
          .ok (res, ev) := hcp
      refine ⟨res,
        Event.removedDir (rp ++ [k]) :: Event.copiedFile (rp ++ [k]) :: ev, ?_, hres,
        Event.removedDir (rp ++ [k]) :: Event.copiedFile (rp ++ [k]) :: pre, post, ?_⟩
      · rw [copy_to_replica.eq_def]
        simp only [hl, remove_directory_dir, envOk_removeFails, Bool.false_eq_true,
          if_false, copy_file_none, envOk_copyFails]
        simp [hcp2, updOpt]
      · rw [hev]
        simp
  | case6 sp rp rpl k rest spn rpn rcs0 scs hl ih1 ih2 =>
    intro n c m rcs hs hr hsn hrn
    simp only [wfL_cons, Bool.and_eq_true, Bool.not_eq_true'] at hs
    by_cases hk : k = n
    · subst hk
      simp only [lookupA_cons, beq_self_eq_true, if_true] at hsn
      exact Node.noConfusion (Option.some.inj hsn)
    · simp only [lookupA_cons, beq_iff_eq, hk, if_false] at hsn
      have hwfscs : wfL scs = true := by simpa using hs.1.2
      have hwfrcs0 : wfL rcs0 = true := by simpa using wfN_of_lookupA hr hl
      obtain ⟨res1, ev1, hcpsub, _, hwsub, _, _⟩ := copy_ok (sp ++ [k]) (rp ++ [k]) scs rcs0
        hwfscs hwfrcs0
      have hcpsub2 : copy_to_replica Env.ok (sp ++ [k]) (rp ++ [k]) scs rcs0 =
          .ok (res1, ev1) := hcpsub
      have hupd : wfL (updateA rpl k (Node.dir res1)) = true :=
        wfL_updateA hr (by simpa using hwsub)
      have hrn1 : lookupA (updateA rpl k (Node.dir res1)) n = some (.dir rcs) := by
        rw [lookupA_updateA_ne _ hk]
        exact hrn
      obtain ⟨res, ev, hcp, hres, pre, post, hev⟩ :=
        ih2 (res1, ev1) n c m rcs hs.2 hupd hsn hrn1
      have hcp2 : copy_to_replica Env.ok sp rp rest (updateA rpl k (Node.dir res1)) =
          .ok (res, ev) := hcp
      refine ⟨res, ev1 ++ ev, ?_, hres, ev1 ++ pre, post, ?_⟩
      · rw [copy_to_replica.eq_def]
        simp only [hl, hcpsub2, bindExc_ok]
        simp [hcp2]
      · rw [hev]
        simp
  | case7 sp rp rpl k rest spn rpn c' m' scs hl r1 r2 ih =>
    intro n c m rcs hs hr hsn hrn
    simp only [wfL_cons, Bool.and_eq_true, Bool.not_eq_true'] at hs
    by_cases hk : k = n
    · subst hk
      simp only [lookupA_cons, beq_self_eq_true, if_true] at hsn
      exact Node.noConfusion (Option.some.inj hsn)
    · simp only [lookupA_cons, beq_iff_eq, hk, if_false] at hsn
      have hwfscs : wfL scs = true := by simpa using hs.1.2
      have hclone : (copytreeList Env.ok (sp ++ [k]) scs).1 = scs := by
        rw [copytree_exact]
      have hupd : wfL (updateA rpl k (Node.dir (copytreeList Env.ok (sp ++ [k]) scs).1)) =
          true := by
        rw [hclone]
        exact wfL_updateA hr (by simpa using hwfscs)
      have hrn1 : lookupA (updateA rpl k
          (Node.dir (copytreeList Env.ok (sp ++ [k]) scs).1)) n = some (.dir rcs) := by
        rw [lookupA_updateA_ne _ hk]
        exact hrn
      obtain ⟨res, ev, hcp, hres, pre, post, hev⟩ := ih n c m rcs hs.2 hupd hsn hrn1
      have hcp2 : copy_to_replica Env.ok sp rp rest
          (updateA rpl k (Node.dir (copytreeList Env.ok (sp ++ [k]) scs).1)) =
          .ok (res, ev) := hcp
      rw [hclone] at hcp2
      refine ⟨res,
        Event.removedFile (rp ++ [k]) :: Event.copiedDir (rp ++ [k]) :: ev, ?_, hres,
        Event.removedFile (rp ++ [k]) :: Event.copiedDir (rp ++ [k]) :: pre, post, ?_⟩
      · rw [copy_to_replica.eq_def]
        simp only [hl, remove_file_file, envOk_removeFails, Bool.false_eq_true,
          if_false, copy_directory_none, copytree_exact]
        simp [hcp2, updOpt]
      · rw [hev]
        simp

/-- C4: for a path that is a regular file in the source and a directory
(possibly with nested content) in the replica, one cycle (with no failing
operation) leaves the replica path holding a regular file with exactly the
source file's content, nothing survives below that path, and the operation
log shows the entire replica directory subtree being removed immediately
before the source file is copied in. -/
theorem c4_file_over_dir (sp rp : Path) (src rpl : Listing) (n : String)
    (c : List Nat) (m : Nat) (rcs : Listing)
    (hs : wfL src = true) (hr : wfL rpl = true)
    (hsn : lookupA src n = some (.file c m)) (hrn : lookupA rpl n = some (.dir rcs)) :
    ∃ res ev, synch_folders Env.ok sp rp src rpl = .ok (res, ev) ∧
      (∃ m2, lookupA res n = some (.file c m2)) ∧
      (∀ k q, lookupPath (.dir res) (n :: k :: q) = none) ∧
      ∃ pre post,
        ev = pre ++ [.removedDir (rp ++ [n]), .copiedFile (rp ++ [n])] ++ post := by
  obtain ⟨r1, ev1, hcp, hres1, pre, post, hev⟩ :=
    copy_conflict sp rp src rpl n c m rcs hs hr hsn hrn
  obtain ⟨r0, ev0, hcp0, _, hw0, _, _⟩ := copy_ok sp rp src rpl hs hr
  rw [hcp] at hcp0
  injection hcp0 with hcp0
  injection hcp0 with he1 he2
  rw [← he1] at hw0
  obtain ⟨hwres, hchar⟩ := remove_char sp rp (.dir src) r1 hw0
  have hresn : lookupA (remove_from_replica Env.ok sp rp (.dir src) r1).1 n =
      some (Node.file c m) := by
    rw [hchar n]
    have hch : childOf (Node.dir src) n = some (Node.file c m) := by simpa using hsn
    rw [hch, hres1]
  rcases src with _ | ⟨shd, st⟩
  · simp at hsn
  rcases rpl with _ | ⟨rhd, rt⟩
  · simp at hrn
  refine ⟨(remove_from_replica Env.ok sp rp (.dir (shd :: st)) r1).1,
    ev1 ++ (remove_from_replica Env.ok sp rp (.dir (shd :: st)) r1).2, ?_, ⟨m, hresn⟩,
    ?_, pre, post ++ (remove_from_replica Env.ok sp rp (.dir (shd :: st)) r1).2, ?_⟩
  · rw [synch_folders]
    simp only [is_folder_empty, List.isEmpty_cons, List.isEmpty_nil, Bool.false_and,
      Bool.not_false, Bool.and_true, Bool.false_eq_true, if_false, if_true]
    rw [hcp]
    simp
  · intro k q
    simp [lookupPath, hresn]
  · rw [hev]
    simp

theorem c4_file_over_dir_witness :
    ∃ res ev,
      synch_folders Env.ok ["s"] ["r"]
        [("d", .file [5] 0)]
        [("d", .dir [("x", .file [1] 0), ("y", .dir [("z", .file [2] 0)])])] =
        .ok (res, ev) ∧
      (∃ m2, lookupA res "d" = some (.file [5] m2)) ∧
      (∀ k q, lookupPath (.dir res) ("d" :: k :: q) = none) ∧
      ∃ pre post,
        ev = pre ++ [.removedDir (["r"] ++ ["d"]), .copiedFile (["r"] ++ ["d"])] ++ post :=
  c4_file_over_dir ["s"] ["r"] [("d", .file [5] 0)]
    [("d", .dir [("x", .file [1] 0), ("y", .dir [("z", .file [2] 0)])])]
    "d" [5] 0 [("x", .file [1] 0), ("y", .dir [("z", .file [2] 0)])]
    (by simp [wfL, wfN, hasName]) (by simp [wfL, wfN, hasName]) rfl rfl

end SyncFolders
